import Mathlib

/-!
Verification development for the LucidIQ backend (Express server with
`/api/analyze` and `/api/chat` endpoints).

The repository's algorithmic core is
  * `sanitizeInput` (src/index.js:15-22) — input sanitization, and
  * the two-phase tolerant JSON extraction inside `app.post('/api/analyze')`
    (src/index.js:210-235), which the specification calls `extractStructured`,
    followed by stamping of the `analyzedAt` timestamp.

Everything below is a shallow embedding of that code.  JavaScript strings are
modelled as Lean `String` / `List Char` (Unicode scalar values; JS is UTF-16,
the difference only shows on surrogate pairs, which no claim touches).
`JSON.parse` / `JSON.stringify` are modelled by an executable parser/printer
for the JSON grammar with JavaScript semantics (duplicate object keys:
last value wins, first position kept; strings decoded with escapes; numbers
kept as their source lexemes).
-/

namespace LucidIQ

/-! ## Character classes -/

/-- The character class removed by `sanitizeInput`'s first regex,
`/[<>{}[\]`]/g` (src/index.js:19). -/
def bannedChar (c : Char) : Bool :=
  c == '<' || c == '>' || c == '{' || c == '}' || c == '[' || c == ']' || c == '`'

/-- JavaScript's `\w` character class `[A-Za-z0-9_]`, which determines the
word boundaries `\b` of the denylist regex (src/index.js:20). -/
def isWordChar (c : Char) : Bool :=
  let n := c.toNat
  (65 ≤ n && n ≤ 90) || (97 ≤ n && n ≤ 122) || (48 ≤ n && n ≤ 57) || n == 95

/-- Case folding as performed by a non-unicode case-insensitive JavaScript
regex on ASCII: `A`-`Z` map to `a`-`z`, everything else is unchanged
(non-ASCII characters never canonicalize onto ASCII in non-`u` mode). -/
def lowerChar (c : Char) : Char :=
  if 65 ≤ c.toNat && c.toNat ≤ 90 then Char.ofNat (c.toNat + 32) else c

/-- The whitespace class removed by JavaScript `String.prototype.trim`
(ECMAScript WhiteSpace ∪ LineTerminator). -/
def jsWsChar (c : Char) : Bool :=
  let n := c.toNat
  n == 0x20 || n == 0x09 || n == 0x0A || n == 0x0D || n == 0x0B || n == 0x0C ||
  n == 0xA0 || n == 0x1680 || (0x2000 ≤ n && n ≤ 0x200A) ||
  n == 0x2028 || n == 0x2029 || n == 0x202F || n == 0x205F ||
  n == 0x3000 || n == 0xFEFF

/-! ## The sanitizer stages (src/index.js:17-21)

`sanitizeInput` chains four operations on the string:
`.substring(0, maxLength)`, removal of the banned character class, removal of
the whole-word denylist, and `.trim()`.  Each stage is modelled separately on
`List Char`. -/

/-- Stage 1: `.substring(0, maxLength)`. -/
def takeStage (n : Nat) (cs : List Char) : List Char := cs.take n

/-- Stage 2: `.replace(/[<>{}[\]`]/g, '')`. -/
def stripCharsStage (cs : List Char) : List Char := cs.filter (fun c => !bannedChar c)

/-- The denylist of the word-removal regex (src/index.js:20), as lists of
(lowercase) characters.  No token is a prefix of another. -/
def denyTokens : List (List Char) :=
  [['i','g','n','o','r','e'], ['f','o','r','g','e','t'],
   ['d','i','s','r','e','g','a','r','d'], ['o','v','e','r','r','i','d','e'],
   ['i','n','s','t','e','a','d'], ['p','r','e','t','e','n','d'],
   ['i','m','a','g','i','n','e'], ['r','o','l','e','p','l','a','y'],
   ['j','a','i','l','b','r','e','a','k']]

/-- Does the (case-insensitive) token `tok` match at the head of `cs` with a
word boundary after it?  (The boundary before is handled by the scanner's
`prevW` flag.)  Defined by simultaneous recursion: compare characters case
insensitively and, once the token is exhausted, require the next character to
be a non-word character (or the end of the text). -/
def matchesTokAt : List Char → List Char → Bool
  | [], [] => true
  | [], d :: _ => !isWordChar d
  | _ :: _, [] => false
  | t :: ts, c :: cs => (lowerChar c == t) && matchesTokAt ts cs

/-- At the head of `cs`, find the denylist token (if any) that matches with a
word boundary after it.  At most one token can be a prefix since no token is a
prefix of another. -/
def tryMatchTok (cs : List Char) : Option (List Char) :=
  denyTokens.find? (fun t => matchesTokAt t cs)

theorem tryMatchTok_mem {cs t : List Char} (h : tryMatchTok cs = some t) :
    t ∈ denyTokens :=
  List.mem_of_find?_eq_some h

theorem denyTokens_ne_nil : ∀ t ∈ denyTokens, t ≠ [] := by decide

theorem tryMatchTok_length_pos {cs t : List Char} (h : tryMatchTok cs = some t) :
    0 < t.length := by
  have := denyTokens_ne_nil t (tryMatchTok_mem h)
  exact List.length_pos.mpr this

/-- Stage 3: the global word-boundary denylist replacement
`.replace(/\b(ignore|forget|disregard|override|instead|pretend|imagine|roleplay|jailbreak)\b/gi, '')`.
The scanner walks the string left to right; `prevW` records whether the
previous character of the *original* string is a word character (`\b` before a
match requires it not to be).  On a match the matched span is skipped (replaced
by nothing) and scanning resumes after it — matching always happens against the
original text, exactly as JavaScript's global `replace` does. -/
def stripWordsAux (prevW : Bool) (cs : List Char) : List Char :=
  match cs with
  | [] => []
  | c :: rest =>
    if prevW then c :: stripWordsAux (isWordChar c) rest
    else
      match tryMatchTok (c :: rest) with
      | some t => stripWordsAux true (rest.drop (t.length - 1))
      | none => c :: stripWordsAux (isWordChar c) rest
termination_by cs.length
decreasing_by
  · simp
  · simp only [List.length_drop, List.length_cons]
    omega
  · simp

/-- Structurally recursive twin of `stripWordsAux`: a pending token match is
consumed one character at a time through the `skip` counter, so that the
function reduces inside the kernel (`decide`/`rfl` on concrete strings).
`stripWordsGo_eq_aux` proves it equal to `stripWordsAux`. -/
def stripWordsGo (skip : Nat) (prevW : Bool) : List Char → List Char
  | [] => []
  | c :: rest =>
    match skip with
    | s+1 => stripWordsGo s (isWordChar c) rest
    | 0 =>
      if prevW then c :: stripWordsGo 0 (isWordChar c) rest
      else
        match tryMatchTok (c :: rest) with
        | some t => stripWordsGo (t.length - 1) true rest
        | none => c :: stripWordsGo 0 (isWordChar c) rest

/-- The word-character status of the character preceding the scan position
after `xs` has been consumed, starting from status `pw`. -/
def lastW (pw : Bool) : List Char → Bool
  | [] => pw
  | c :: cs => lastW (isWordChar c) cs

theorem stripWordsGo_skip (xs : List Char) (pw : Bool) (ys : List Char) :
    stripWordsGo xs.length pw (xs ++ ys) = stripWordsGo 0 (lastW pw xs) ys := by
  induction xs generalizing pw with
  | nil => rfl
  | cons x xs ih => exact ih (isWordChar x)

theorem lastW_true_of_all_word {xs : List Char}
    (h : ∀ ch ∈ xs, isWordChar ch = true) : lastW true xs = true := by
  induction xs with
  | nil => rfl
  | cons x xs ih =>
      have hx : isWordChar x = true := h x (List.mem_cons_self x xs)
      show lastW (isWordChar x) xs = true
      rw [hx]
      exact ih (fun ch hch => h ch (List.mem_cons_of_mem _ hch))

theorem denyTokens_lower : ∀ t ∈ denyTokens, ∀ ch ∈ t, 97 ≤ ch.toNat ∧ ch.toNat ≤ 122 := by
  decide

/-- A predicate on the suffix after a candidate match: the text continues with
a non-word character or has ended (the `\b` after the token). -/
def HeadNonWord (cs : List Char) : Prop :=
  ∀ d, cs.head? = some d → isWordChar d = false

theorem headNonWord_nil : HeadNonWord [] := by
  intro d hd
  simp at hd

theorem headNonWord_cons {d : Char} {cs : List Char} (h : isWordChar d = false) :
    HeadNonWord (d :: cs) := by
  intro e he
  simp at he
  subst he
  exact h

theorem lowerChar_eq_of_not_upper {x : Char}
    (h : ¬(65 ≤ x.toNat ∧ x.toNat ≤ 90)) : lowerChar x = x := by
  unfold lowerChar
  rw [if_neg]
  simpa using h

theorem isWordChar_of_lower_letter {x : Char}
    (h1 : 97 ≤ (lowerChar x).toNat) (h2 : (lowerChar x).toNat ≤ 122) :
    isWordChar x = true := by
  by_cases hc : 65 ≤ x.toNat ∧ x.toNat ≤ 90
  · simp only [isWordChar, Bool.or_eq_true, Bool.and_eq_true, decide_eq_true_eq]
    exact Or.inl (Or.inl (Or.inl hc))
  · rw [lowerChar_eq_of_not_upper hc] at h1 h2
    simp only [isWordChar, Bool.or_eq_true, Bool.and_eq_true, decide_eq_true_eq]
    exact Or.inl (Or.inl (Or.inr ⟨h1, h2⟩))

theorem tryMatchTok_matches {cs t : List Char} (h : tryMatchTok cs = some t) :
    matchesTokAt t cs = true := by
  unfold tryMatchTok at h
  have := List.find?_some h
  simpa using this

theorem matchesTokAt_length {t cs : List Char} (h : matchesTokAt t cs = true) :
    t.length ≤ cs.length := by
  induction t generalizing cs with
  | nil => simp
  | cons t0 ts ih =>
      cases cs with
      | nil => simp [matchesTokAt] at h
      | cons c cs =>
          simp only [matchesTokAt, Bool.and_eq_true] at h
          simpa using ih h.2

theorem matchesTokAt_word_take {t cs : List Char}
    (hlow : ∀ ch ∈ t, 97 ≤ ch.toNat ∧ ch.toNat ≤ 122)
    (h : matchesTokAt t cs = true) :
    ∀ ch ∈ cs.take t.length, isWordChar ch = true := by
  induction t generalizing cs with
  | nil => simp
  | cons t0 ts ih =>
      cases cs with
      | nil => simp [matchesTokAt] at h
      | cons c cs =>
          simp only [matchesTokAt, Bool.and_eq_true, beq_iff_eq] at h
          intro ch hch
          simp only [List.length_cons, List.take_succ_cons, List.mem_cons] at hch
          rcases hch with rfl | hch
          · have h0 := hlow t0 (List.mem_cons_self _ _)
            rw [← h.1] at h0
            exact isWordChar_of_lower_letter h0.1 h0.2
          · exact ih (fun e he => hlow e (List.mem_cons_of_mem _ he)) h.2 ch hch

theorem matchesTokAt_boundary {t cs : List Char}
    (h : matchesTokAt t cs = true) : HeadNonWord (cs.drop t.length) := by
  induction t generalizing cs with
  | nil =>
      cases cs with
      | nil => exact headNonWord_nil
      | cons d cs =>
          simp only [matchesTokAt, Bool.not_eq_true'] at h
          exact headNonWord_cons h
  | cons t0 ts ih =>
      cases cs with
      | nil => simp [matchesTokAt] at h
      | cons c cs =>
          simp only [matchesTokAt, Bool.and_eq_true] at h
          simpa using ih h.2

theorem tryMatchTok_word_chars {cs t : List Char} (h : tryMatchTok cs = some t) :
    ∀ ch ∈ cs.take t.length, isWordChar ch = true :=
  matchesTokAt_word_take (denyTokens_lower t (tryMatchTok_mem h))
    (tryMatchTok_matches h)

theorem stripWordsGo_eq_aux (prevW : Bool) (cs : List Char) :
    stripWordsGo 0 prevW cs = stripWordsAux prevW cs := by
  induction prevW, cs using stripWordsAux.induct with
  | case1 prevW => simp [stripWordsGo, stripWordsAux]
  | case2 c rest ih =>
      simp only [stripWordsGo, stripWordsAux, if_true, ih]
  | case3 prevW c rest hnp t h ih =>
      have hp : prevW = false := by simpa using hnp
      subst hp
      have hm := tryMatchTok_matches h
      have hlen : t.length ≤ rest.length + 1 := by
        simpa using matchesTokAt_length hm
      have hpos : 0 < t.length := tryMatchTok_length_pos h
      have hword : ∀ ch ∈ rest.take (t.length - 1), isWordChar ch = true := by
        intro ch hch
        apply tryMatchTok_word_chars h
        have ht : (c :: rest).take t.length = c :: rest.take (t.length - 1) := by
          cases ht : t.length with
          | zero => omega
          | succ k => simp [List.take_succ_cons]
        rw [ht]
        exact List.mem_cons_of_mem _ hch
      have hxslen : (rest.take (t.length - 1)).length = min (t.length - 1) rest.length := by
        simp [List.length_take]
      rw [stripWordsAux]
      simp only [Bool.false_eq_true, if_false, h]
      rw [show stripWordsGo 0 false (c :: rest)
            = stripWordsGo (t.length - 1) true rest by
        simp only [stripWordsGo, Bool.false_eq_true, if_false, h]]
      calc stripWordsGo (t.length - 1) true rest
          = stripWordsGo (rest.take (t.length - 1)).length true
              (rest.take (t.length - 1) ++ rest.drop (t.length - 1)) := by
            rw [List.take_append_drop, hxslen]
            congr 1
            omega
        _ = stripWordsGo 0 (lastW true (rest.take (t.length - 1)))
              (rest.drop (t.length - 1)) := stripWordsGo_skip _ _ _
        _ = stripWordsGo 0 true (rest.drop (t.length - 1)) := by
            rw [lastW_true_of_all_word hword]
        _ = stripWordsAux true (rest.drop (t.length - 1)) := ih
  | case4 prevW c rest hnp h ih =>
      have hp : prevW = false := by simpa using hnp
      subst hp
      rw [stripWordsAux]
      simp only [Bool.false_eq_true, if_false, h, stripWordsGo, ih]

def stripWordsStage (cs : List Char) : List Char := stripWordsGo 0 false cs

theorem stripWordsStage_eq (cs : List Char) :
    stripWordsStage cs = stripWordsAux false cs :=
  stripWordsGo_eq_aux false cs

/-- Stage 4: `.trim()`. -/
def trimStage (cs : List Char) : List Char :=
  ((cs.dropWhile jsWsChar).reverse.dropWhile jsWsChar).reverse

/-- A JavaScript value in an inbound request-body field, as far as
`sanitizeInput` can observe it (`!input || typeof input !== 'string'`). -/
inductive JsArg where
  | undef : JsArg
  | null : JsArg
  | boolV : Bool → JsArg
  | numV : Int → JsArg
  | strV : String → JsArg
  deriving DecidableEq

/-- JavaScript truthiness of a `JsArg` (as used by `if (!message)` and
`if (!cleanProductName)` in the handlers). -/
def JsArg.truthy : JsArg → Bool
  | .undef => false
  | .null => false
  | .boolV b => b
  | .numV n => n != 0
  | .strV s => s != ""

def JsArg.isString : JsArg → Bool
  | .strV _ => true
  | _ => false

/-- The four-stage pipeline applied to a string input. -/
def sanitizePipeline (s : String) (maxLength : Nat) : String :=
  String.mk (trimStage (stripWordsStage (stripCharsStage (takeStage maxLength s.data))))

/-- `sanitizeInput` (src/index.js:15-22).  A non-string or falsy input (which
includes the empty string) yields `''`; otherwise the four stages run in
source order: truncate, strip characters, strip denylisted words, trim. -/
def sanitizeInput (input : JsArg) (maxLength : Nat) : String :=
  if !input.truthy || !input.isString then ""
  else match input with
       | .strV s => sanitizePipeline s maxLength
       | _ => ""

/-! ## Endpoint validation (src/index.js:39-52 and 244-257)

`/api/analyze` sanitizes `productName` first and rejects with 400 when the
*cleaned* name is empty.  `/api/chat` rejects with 400 when the *raw*
`message` is falsy, and only afterwards sanitizes it. -/

inductive Validation where
  | rejected400 : Validation
  | accepted : String → Validation
  deriving DecidableEq

/-- The 400-validation step of `app.post('/api/analyze')` (src/index.js:42-46). -/
def analyzeValidate (productName : JsArg) : Validation :=
  if sanitizeInput productName 200 == "" then .rejected400
  else .accepted (sanitizeInput productName 200)

/-- The 400-validation step of `app.post('/api/chat')` (src/index.js:247-257):
the check `if (!message)` runs on the raw field; sanitization to 500
characters happens only after the check. -/
def chatValidate (message : JsArg) : Validation :=
  if !message.truthy then .rejected400 else .accepted (sanitizeInput message 500)

/-! ## Basic properties of the sanitizer stages -/

theorem stripWordsAux_sublist (prevW : Bool) (cs : List Char) :
    List.Sublist (stripWordsAux prevW cs) cs := by
  induction prevW, cs using stripWordsAux.induct with
  | case1 prevW => simp [stripWordsAux]
  | case2 c rest ih =>
      rw [stripWordsAux]
      simpa using ih.cons₂ c
  | case3 prevW c rest hnp t h ih =>
      have hp : prevW = false := by simpa using hnp
      subst hp
      rw [stripWordsAux]
      simp only [Bool.false_eq_true, if_false, h]
      exact ih.trans ((List.drop_sublist _ _).trans (List.sublist_cons_self c rest))
  | case4 prevW c rest hnp h ih =>
      have hp : prevW = false := by simpa using hnp
      subst hp
      rw [stripWordsAux]
      simp only [Bool.false_eq_true, if_false, h]
      exact ih.cons₂ c

theorem trimStage_sublist (cs : List Char) : List.Sublist (trimStage cs) cs := by
  unfold trimStage
  have h1 : List.Sublist (cs.dropWhile jsWsChar) cs := List.dropWhile_sublist _
  have h2 : List.Sublist ((cs.dropWhile jsWsChar).reverse.dropWhile jsWsChar)
      (cs.dropWhile jsWsChar).reverse := List.dropWhile_sublist _
  have h3 := h2.reverse
  rw [List.reverse_reverse] at h3
  exact h3.trans h1

theorem sanitizePipeline_length_le (s : String) (n : Nat) :
    (sanitizePipeline s n).length ≤ n := by
  show (trimStage (stripWordsStage (stripCharsStage (takeStage n s.data)))).length ≤ n
  have h1 := (trimStage_sublist (stripWordsStage (stripCharsStage (takeStage n s.data)))).length_le
  have h2 : (stripWordsStage (stripCharsStage (takeStage n s.data))).length ≤
      (stripCharsStage (takeStage n s.data)).length := by
    rw [stripWordsStage_eq]
    exact (stripWordsAux_sublist false _).length_le
  have h3 : (stripCharsStage (takeStage n s.data)).length ≤ (takeStage n s.data).length :=
    List.length_filter_le _ _
  have h4 : (takeStage n s.data).length ≤ n := by
    simp [takeStage]
  omega

theorem sanitizeInput_non_string {input : JsArg} (h : input.isString = false)
    (n : Nat) : sanitizeInput input n = "" := by
  cases input <;> simp_all [sanitizeInput, JsArg.isString]

/-! ## Claim C9 -/

/-- C9: for all inputs and maxLength `n`, the sanitized output has length at
most `n`, and any absent/null/non-string input yields the empty string; the
function is total by construction. -/
theorem sanitize_length_total (input : JsArg) (n : Nat) :
    (sanitizeInput input n).length ≤ n ∧
      (input.isString = false → sanitizeInput input n = "") := by
  refine ⟨?_, fun h => sanitizeInput_non_string h n⟩
  cases input with
  | strV s =>
      unfold sanitizeInput
      split
      · simp
      · exact sanitizePipeline_length_le s n
  | undef => simp [sanitizeInput]
  | null => simp [sanitizeInput]
  | boolV b => simp [sanitizeInput, JsArg.isString]
  | numV k => simp [sanitizeInput, JsArg.isString]

/-- Witness for C9 at a concrete non-string input. -/
theorem sanitize_length_total_witness :
    (sanitizeInput (JsArg.numV 42) 5).length ≤ 5 ∧
      (JsArg.isString (JsArg.numV 42) = false → sanitizeInput (JsArg.numV 42) 5 = "") :=
  sanitize_length_total (JsArg.numV 42) 5

/-! ## Claim C6 -/

/-- C6: on string input, `sanitizeInput` is exactly the composition of the
four stages in source order — truncate to `maxLength`, remove the banned
character class, remove denylisted whole words, trim whitespace. -/
theorem sanitize_stage_order (s : String) (n : Nat) :
    sanitizeInput (JsArg.strV s) n =
      String.mk (trimStage (stripWordsStage (stripCharsStage (takeStage n s.data)))) := by
  by_cases h : s = ""
  · subst h
    simp [sanitizeInput, sanitizePipeline, JsArg.truthy, takeStage, stripCharsStage,
      stripWordsStage, stripWordsGo, trimStage]
  · unfold sanitizeInput
    have ht : (JsArg.strV s).truthy = true := by
      simpa [JsArg.truthy] using h
    rw [ht]
    rfl

/-! ## Claim C2 -/

/-- C2 counterexample: `"ignore"` is a non-empty chat message that sanitizes
to the empty string, yet `/api/chat` does not reject it with 400 — it is
accepted with an empty cleaned message (the 400 check tests only raw
truthiness, src/index.js:247-249). -/
theorem chat_empty_after_sanitize_not_rejected :
    JsArg.truthy (JsArg.strV "ignore") = true ∧
    sanitizeInput (JsArg.strV "ignore") 500 = "" ∧
    chatValidate (JsArg.strV "ignore") = Validation.accepted "" := by
  exact ⟨rfl, rfl, rfl⟩

/-- C2 as amended: `/api/analyze` rejects with 400 exactly when `productName`
sanitizes to the empty string (including missing/non-string input), while
`/api/chat` rejects with 400 exactly when the raw `message` is falsy — a
non-empty message that sanitizes to empty is *not* rejected. -/
theorem validation_400_behaviour :
    (∀ p : JsArg, analyzeValidate p = Validation.rejected400 ↔ sanitizeInput p 200 = "") ∧
    (∀ m : JsArg, chatValidate m = Validation.rejected400 ↔ m.truthy = false) := by
  constructor
  · intro p
    unfold analyzeValidate
    split
    · rename_i h
      simp only [beq_iff_eq] at h
      simp [h]
    · rename_i h
      simp only [beq_iff_eq] at h
      simp [h]
  · intro m
    unfold chatValidate
    split
    · rename_i h
      simp only [Bool.not_eq_eq_eq_not, Bool.not_true] at h
      simp [h]
    · rename_i h
      simp only [Bool.not_eq_eq_eq_not, Bool.not_true] at h
      simp [h]

/-- Witness for C2's amended theorem at concrete inputs. -/
theorem validation_400_behaviour_witness :
    analyzeValidate JsArg.undef = Validation.rejected400 :=
  (validation_400_behaviour.1 JsArg.undef).mpr rfl

/-! ## Occurrences of denylisted words

`hasWordTokAux` scans a text exactly like the replacement scanner does, but
only reports whether some denylist token occurs as a whole word.  The central
result is that the output of `stripWordsAux` — and hence of the whole
sanitizer — contains no such occurrence. -/

/-- Does a denylist token occur, `\b`-bounded, anywhere in the text?  `prevW`
is the word-character status of the character before the scan position. -/
def hasWordTokAux (prevW : Bool) : List Char → Bool
  | [] => false
  | c :: rest =>
    (!prevW && (tryMatchTok (c :: rest)).isSome) || hasWordTokAux (isWordChar c) rest

/-- Whether the denylist regex of `sanitizeInput` matches somewhere in `s`. -/
def containsDenyWord (s : String) : Bool := hasWordTokAux false s.data

theorem find?_congr_mem {α : Type} {l : List α} {p q : α → Bool}
    (h : ∀ a ∈ l, p a = q a) : l.find? p = l.find? q := by
  induction l with
  | nil => rfl
  | cons a l ih =>
      rw [List.find?_cons, List.find?_cons, h a (List.mem_cons_self _ _)]
      cases q a with
      | true => rfl
      | false => exact ih (fun b hb => h b (List.mem_cons_of_mem _ hb))

theorem not_word_not_upper {c : Char} (hc : isWordChar c = false) :
    ¬(65 ≤ c.toNat ∧ c.toNat ≤ 90) := by
  intro h
  have : isWordChar c = true := by
    simp only [isWordChar, Bool.or_eq_true, Bool.and_eq_true, decide_eq_true_eq]
    exact Or.inl (Or.inl (Or.inl h))
  rw [this] at hc
  cases hc

theorem lowerChar_ne_lowercase {d t0 : Char} (hd : isWordChar d = false)
    (hl : 97 ≤ t0.toNat ∧ t0.toNat ≤ 122) : (lowerChar d == t0) = false := by
  rw [lowerChar_eq_of_not_upper (not_word_not_upper hd)]
  apply beq_eq_false_iff_ne.mpr
  intro hde
  subst hde
  have : isWordChar d = true := by
    simp only [isWordChar, Bool.or_eq_true, Bool.and_eq_true, decide_eq_true_eq]
    exact Or.inl (Or.inl (Or.inr hl))
  rw [this] at hd
  cases hd

theorem matchesTokAt_nil_headNonWord {D : List Char} (h : HeadNonWord D) :
    matchesTokAt [] D = true := by
  cases D with
  | nil => rfl
  | cons d D' =>
      have := h d rfl
      simp [matchesTokAt, this]

theorem matchesTokAt_cons_headNonWord {t0 : Char} {ts D : List Char}
    (h : HeadNonWord D) (hl : 97 ≤ t0.toNat ∧ t0.toNat ≤ 122) :
    matchesTokAt (t0 :: ts) D = false := by
  cases D with
  | nil => rfl
  | cons d D' =>
      have hd := h d rfl
      simp [matchesTokAt, lowerChar_ne_lowercase hd hl]

theorem matchesTok_nonword_head {t : List Char} (ht : t ∈ denyTokens) {c : Char}
    (hc : isWordChar c = false) (rest : List Char) :
    matchesTokAt t (c :: rest) = false := by
  have hne := denyTokens_ne_nil t ht
  cases t with
  | nil => exact absurd rfl hne
  | cons t0 ts =>
      have hl := denyTokens_lower _ ht t0 (List.mem_cons_self _ _)
      simp [matchesTokAt, lowerChar_ne_lowercase hc hl]

theorem tryMatchTok_nonword_head {c : Char} {rest : List Char}
    (hc : isWordChar c = false) : tryMatchTok (c :: rest) = none := by
  unfold tryMatchTok
  rw [List.find?_eq_none]
  intro t ht
  simp [matchesTok_nonword_head ht hc]

theorem matchesTokAt_run_congr {t run D₁ D₂ : List Char}
    (hlow : ∀ ch ∈ t, 97 ≤ ch.toNat ∧ ch.toNat ≤ 122)
    (hrun : ∀ ch ∈ run, isWordChar ch = true)
    (h1 : HeadNonWord D₁) (h2 : HeadNonWord D₂) :
    matchesTokAt t (run ++ D₁) = matchesTokAt t (run ++ D₂) := by
  induction run generalizing t with
  | nil =>
      cases t with
      | nil =>
          rw [List.nil_append, List.nil_append,
            matchesTokAt_nil_headNonWord h1, matchesTokAt_nil_headNonWord h2]
      | cons t0 ts =>
          have hl := hlow t0 (List.mem_cons_self _ _)
          rw [List.nil_append, List.nil_append,
            matchesTokAt_cons_headNonWord h1 hl, matchesTokAt_cons_headNonWord h2 hl]
  | cons r run ih =>
      have hr : isWordChar r = true := hrun r (List.mem_cons_self _ _)
      cases t with
      | nil => simp [matchesTokAt, hr]
      | cons t0 ts =>
          simp only [List.cons_append, matchesTokAt]
          congr 1
          exact ih (fun e he => hlow e (List.mem_cons_of_mem _ he))
            (fun e he => hrun e (List.mem_cons_of_mem _ he))

theorem tryMatchTok_run_congr {run D₁ D₂ : List Char}
    (hrun : ∀ ch ∈ run, isWordChar ch = true)
    (h1 : HeadNonWord D₁) (h2 : HeadNonWord D₂) :
    tryMatchTok (run ++ D₁) = tryMatchTok (run ++ D₂) := by
  unfold tryMatchTok
  apply find?_congr_mem
  intro t ht
  exact matchesTokAt_run_congr (denyTokens_lower t ht) hrun h1 h2

theorem mem_takeWhile_pred {p : Char → Bool} :
    ∀ {l : List Char} {a : Char}, a ∈ l.takeWhile p → p a = true := by
  intro l
  induction l with
  | nil => intro a ha; simp [List.takeWhile] at ha
  | cons c cs ih =>
      intro a ha
      rw [List.takeWhile_cons] at ha
      by_cases hc : p c = true
      · rw [if_pos hc] at ha
        rcases List.mem_cons.mp ha with rfl | ha
        · exact hc
        · exact ih ha
      · rw [if_neg hc] at ha
        simp at ha


theorem headNonWord_dropWhile (l : List Char) :
    HeadNonWord (l.dropWhile isWordChar) := by
  induction l with
  | nil => exact headNonWord_nil
  | cons c cs ih =>
      by_cases hc : isWordChar c = true
      · rw [List.dropWhile_cons, if_pos hc]
        exact ih
      · rw [List.dropWhile_cons, if_neg hc]
        exact headNonWord_cons (by simpa using hc)

/-- `stripWordsAux true` preserves the leading run of word characters: no
match is ever attempted inside it, and whatever follows the run in the output
starts with a non-word character. -/
theorem stripAux_true_run (rest : List Char) :
    ∃ D, stripWordsAux true rest = rest.takeWhile isWordChar ++ D ∧ HeadNonWord D := by
  induction rest with
  | nil => exact ⟨[], by simp [stripWordsAux], headNonWord_nil⟩
  | cons y ys ih =>
      by_cases hy : isWordChar y = true
      · obtain ⟨D, hD, hH⟩ := ih
        refine ⟨D, ?_, hH⟩
        rw [stripWordsAux, if_pos rfl, hy, hD, List.takeWhile_cons, if_pos hy,
          List.cons_append]
      · have hy' : isWordChar y = false := by simpa using hy
        refine ⟨y :: stripWordsAux (isWordChar y) ys, ?_, headNonWord_cons hy'⟩
        rw [stripWordsAux, if_pos rfl, List.takeWhile_cons, if_neg hy, List.nil_append]

/-- Key invariance: matching at a word-character position sees the same
result in the stripped continuation as in the original continuation. -/
theorem tryMatchTok_strip_true {c : Char} (hc : isWordChar c = true)
    (rest : List Char) :
    tryMatchTok (c :: stripWordsAux true rest) = tryMatchTok (c :: rest) := by
  obtain ⟨D, hD, hH⟩ := stripAux_true_run rest
  have hsplit : rest = rest.takeWhile isWordChar ++ rest.dropWhile isWordChar :=
    (List.takeWhile_append_dropWhile _ _).symm
  have hrun : ∀ ch ∈ c :: rest.takeWhile isWordChar, isWordChar ch = true := by
    intro ch hch
    rcases List.mem_cons.mp hch with rfl | hch
    · exact hc
    · exact mem_takeWhile_pred hch
  have e1 : c :: stripWordsAux true rest
      = (c :: rest.takeWhile isWordChar) ++ D := by
    rw [hD, List.cons_append]
  have e2 : c :: rest = (c :: rest.takeWhile isWordChar) ++ rest.dropWhile isWordChar := by
    rw [List.cons_append, ← hsplit]
  rw [e1, e2]
  exact tryMatchTok_run_congr hrun hH (headNonWord_dropWhile rest)

/-- The central lemma for C7: the output of the word stripper contains no
whole-word occurrence of a denylist token. -/
theorem hasTok_strip (prevW : Bool) (cs : List Char) :
    hasWordTokAux prevW (stripWordsAux prevW cs) = false := by
  cases cs with
  | nil => simp [stripWordsAux, hasWordTokAux]
  | cons c rest =>
    by_cases hp : prevW = true
    · subst hp
      rw [stripWordsAux, if_pos rfl]
      simp only [hasWordTokAux, Bool.not_true, Bool.false_and, Bool.false_or]
      exact hasTok_strip (isWordChar c) rest
    · have hp' : prevW = false := by simpa using hp
      subst hp'
      rw [stripWordsAux]
      simp only [Bool.false_eq_true, if_false]
      cases h : tryMatchTok (c :: rest) with
      | some t =>
          show hasWordTokAux false (stripWordsAux true (List.drop (t.length - 1) rest)) = false
          have hb : HeadNonWord ((c :: rest).drop t.length) :=
            matchesTokAt_boundary (tryMatchTok_matches h)
          have hpos := tryMatchTok_length_pos h
          have hdd : (c :: rest).drop t.length = rest.drop (t.length - 1) := by
            cases ht : t.length with
            | zero => omega
            | succ k => simp [List.drop_succ_cons]
          rw [hdd] at hb
          cases hcase : rest.drop (t.length - 1) with
          | nil => simp [hcase, stripWordsAux, hasWordTokAux]
          | cons y ys =>
              rw [hcase] at hb
              have hy : isWordChar y = false := hb y rfl
              rw [stripWordsAux, if_pos rfl, hy]
              simp only [hasWordTokAux, Bool.not_false, Bool.true_and,
                tryMatchTok_nonword_head hy, Option.isSome_none, Bool.false_or, hy]
              exact hasTok_strip false ys
      | none =>
          show hasWordTokAux false (c :: stripWordsAux (isWordChar c) rest) = false
          simp only [hasWordTokAux, Bool.not_false, Bool.true_and, Bool.or_eq_false_iff]
          constructor
          · by_cases hc : isWordChar c = true
            · rw [hc, tryMatchTok_strip_true hc rest, h]
              rfl
            · have hc' : isWordChar c = false := by simpa using hc
              rw [tryMatchTok_nonword_head hc']
              rfl
          · exact hasTok_strip (isWordChar c) rest
termination_by cs.length
decreasing_by
  · simp
  · simp
  · have := congrArg List.length hcase
    simp only [List.length_drop, List.length_cons] at this
    simp only [List.length_cons]
    omega

/-! ## Trimming preserves the absence of denylist words -/

theorem headNonWord_of_all {ys : List Char}
    (h : ∀ ch ∈ ys, isWordChar ch = false) : HeadNonWord ys := by
  intro d hd
  cases ys with
  | nil => simp at hd
  | cons y ys' =>
      simp at hd
      subst hd
      exact h _ (List.mem_cons_self _ _)

theorem matchesTokAt_extend {t cs ys : List Char} (h : matchesTokAt t cs = true)
    (hys : HeadNonWord ys) : matchesTokAt t (cs ++ ys) = true := by
  induction t generalizing cs with
  | nil =>
      cases cs with
      | nil => simpa using matchesTokAt_nil_headNonWord hys
      | cons d cs' => simpa [matchesTokAt] using h
  | cons t0 ts ih =>
      cases cs with
      | nil => simp [matchesTokAt] at h
      | cons c cs' =>
          simp only [matchesTokAt, Bool.and_eq_true] at h
          simp only [List.cons_append, matchesTokAt, Bool.and_eq_true]
          exact ⟨h.1, ih h.2⟩

theorem tryMatchTok_extend {cs ys : List Char}
    (h : (tryMatchTok cs).isSome = true) (hys : HeadNonWord ys) :
    (tryMatchTok (cs ++ ys)).isSome = true := by
  rw [Option.isSome_iff_exists] at h
  obtain ⟨t, ht⟩ := h
  have hmem := tryMatchTok_mem ht
  have hmatch := matchesTokAt_extend (tryMatchTok_matches ht) hys
  unfold tryMatchTok
  rw [List.find?_isSome]
  exact ⟨t, hmem, hmatch⟩

theorem hasTok_append_mono {ys : List Char}
    (hys : ∀ ch ∈ ys, isWordChar ch = false) :
    ∀ (xs : List Char) (prevW : Bool), hasWordTokAux prevW xs = true →
      hasWordTokAux prevW (xs ++ ys) = true := by
  intro xs
  induction xs with
  | nil => intro prevW h; simp [hasWordTokAux] at h
  | cons c rest ih =>
      intro prevW h
      simp only [hasWordTokAux, Bool.or_eq_true, Bool.and_eq_true] at h
      rcases h with ⟨hnp, hsome⟩ | h
      · have := tryMatchTok_extend hsome (headNonWord_of_all hys)
        simp only [List.cons_append, hasWordTokAux, Bool.or_eq_true, Bool.and_eq_true]
        exact Or.inl ⟨hnp, by simpa using this⟩
      · simp only [List.cons_append, hasWordTokAux, Bool.or_eq_true]
        exact Or.inr (ih _ h)

theorem jsWs_not_word {c : Char} (h : jsWsChar c = true) : isWordChar c = false := by
  simp only [jsWsChar, Bool.or_eq_true, Bool.and_eq_true, beq_iff_eq,
    decide_eq_true_eq] at h
  by_contra hw
  have hw' : isWordChar c = true := by
    cases hb : isWordChar c
    · exact absurd hb hw
    · rfl
  simp only [isWordChar, Bool.or_eq_true, Bool.and_eq_true, beq_iff_eq,
    decide_eq_true_eq] at hw'
  omega

theorem hasTok_false_dropWhile_ws (cs : List Char) :
    hasWordTokAux false (cs.dropWhile jsWsChar) = hasWordTokAux false cs := by
  induction cs with
  | nil => rfl
  | cons c rest ih =>
      by_cases hc : jsWsChar c = true
      · have hw := jsWs_not_word hc
        rw [List.dropWhile_cons, if_pos hc, ih]
        simp [hasWordTokAux, tryMatchTok_nonword_head hw, hw]
      · rw [List.dropWhile_cons, if_neg hc]

theorem hasTok_trimStage {cs : List Char}
    (h : hasWordTokAux false cs = false) :
    hasWordTokAux false (trimStage cs) = false := by
  unfold trimStage
  have ha : hasWordTokAux false (cs.dropWhile jsWsChar) = false := by
    rw [hasTok_false_dropWhile_ws]
    exact h
  set a := cs.dropWhile jsWsChar with hadef
  have hsplit : a = (a.reverse.dropWhile jsWsChar).reverse ++
      (a.reverse.takeWhile jsWsChar).reverse := by
    conv_lhs => rw [← List.reverse_reverse a,
      ← List.takeWhile_append_dropWhile jsWsChar a.reverse]
    rw [List.reverse_append]
  by_contra hcon
  have hcon' : hasWordTokAux false ((a.reverse.dropWhile jsWsChar).reverse) = true := by
    cases hb : hasWordTokAux false ((a.reverse.dropWhile jsWsChar).reverse)
    · exact absurd hb hcon
    · rfl
  have hws : ∀ ch ∈ (a.reverse.takeWhile jsWsChar).reverse, isWordChar ch = false := by
    intro ch hch
    rw [List.mem_reverse] at hch
    exact jsWs_not_word (mem_takeWhile_pred hch)
  have : hasWordTokAux false a = true := by
    rw [hsplit]
    exact hasTok_append_mono hws _ false hcon'
  rw [ha] at this
  cases this

/-! ## Head and last characters of the trimmed output -/

theorem head_dropWhile_not {p : Char → Bool} :
    ∀ {l : List Char} {c : Char}, (l.dropWhile p).head? = some c → p c = false := by
  intro l
  induction l with
  | nil => intro c hc; simp at hc
  | cons a as ih =>
      intro c hc
      by_cases ha : p a = true
      · rw [List.dropWhile_cons, if_pos ha] at hc
        exact ih hc
      · rw [List.dropWhile_cons, if_neg ha] at hc
        simp at hc
        subst hc
        simpa using ha

theorem head?_append_left {l₁ l₂ : List Char} {a : Char}
    (h : l₁.head? = some a) : (l₁ ++ l₂).head? = some a := by
  cases l₁ with
  | nil => simp at h
  | cons x xs => simpa using h

theorem trimStage_head_ws {cs : List Char} {c : Char}
    (h : (trimStage cs).head? = some c) : jsWsChar c = false := by
  unfold trimStage at h
  set a := cs.dropWhile jsWsChar with hadef
  have hsplit : a = (a.reverse.dropWhile jsWsChar).reverse ++
      (a.reverse.takeWhile jsWsChar).reverse := by
    conv_lhs => rw [← List.reverse_reverse a,
      ← List.takeWhile_append_dropWhile jsWsChar a.reverse]
    rw [List.reverse_append]
  have hha : a.head? = some c := by
    rw [hsplit]
    exact head?_append_left h
  exact head_dropWhile_not hha

theorem trimStage_last_ws {cs : List Char} {c : Char}
    (h : (trimStage cs).getLast? = some c) : jsWsChar c = false := by
  unfold trimStage at h
  rw [List.getLast?_reverse] at h
  exact head_dropWhile_not h

/-! ## Collected facts about the sanitizer output -/

/-- All the guarantees the sanitizer gives about its output, proved once and
shared by the claims: it is free of the banned characters, free of whole-word
denylist tokens, has no leading or trailing JavaScript whitespace, and fits in
`maxLength` characters. -/
theorem sanitizeFacts (input : JsArg) (n : Nat) :
    (∀ ch ∈ (sanitizeInput input n).data, bannedChar ch = false) ∧
    containsDenyWord (sanitizeInput input n) = false ∧
    (∀ c, (sanitizeInput input n).data.head? = some c → jsWsChar c = false) ∧
    (∀ c, (sanitizeInput input n).data.getLast? = some c → jsWsChar c = false) ∧
    (sanitizeInput input n).length ≤ n := by
  have hempty : ∀ m : Nat,
      (∀ ch ∈ ("" : String).data, bannedChar ch = false) ∧
      containsDenyWord "" = false ∧
      (∀ c, ("" : String).data.head? = some c → jsWsChar c = false) ∧
      (∀ c, ("" : String).data.getLast? = some c → jsWsChar c = false) ∧
      ("" : String).length ≤ m := by
    intro m
    refine ⟨?_, rfl, ?_, ?_, ?_⟩ <;> simp [String.length]
  cases input with
  | strV str =>
      rw [sanitizeInput]
      by_cases hs : (JsArg.strV str).truthy
      · rw [if_neg (by simp [hs, JsArg.isString])]
        set X := stripWordsStage (stripCharsStage (takeStage n str.data)) with hX
        have hdata : (sanitizePipeline str n).data = trimStage X := rfl
        have htokX : hasWordTokAux false X = false := by
          rw [hX, stripWordsStage_eq]
          exact hasTok_strip false _
        refine ⟨?_, ?_, ?_, ?_, ?_⟩
        · intro ch hch
          rw [hdata] at hch
          have h2 : ch ∈ X := (trimStage_sublist X).subset hch
          rw [hX, stripWordsStage_eq] at h2
          have h3 : ch ∈ stripCharsStage (takeStage n str.data) :=
            (stripWordsAux_sublist false _).subset h2
          have := (List.mem_filter.mp h3).2
          simpa using this
        · show hasWordTokAux false (sanitizePipeline str n).data = false
          rw [hdata]
          exact hasTok_trimStage htokX
        · intro c hc
          rw [hdata] at hc
          exact trimStage_head_ws hc
        · intro c hc
          rw [hdata] at hc
          exact trimStage_last_ws hc
        · exact sanitizePipeline_length_le str n
      · rw [if_pos (by simp [hs])]
        exact hempty n
  | undef => exact hempty n
  | null => exact hempty n
  | boolV b =>
      have he : sanitizeInput (JsArg.boolV b) n = "" := @sanitizeInput_non_string (JsArg.boolV b) rfl n
      rw [he]
      exact hempty n
  | numV k =>
      have he : sanitizeInput (JsArg.numV k) n = "" := @sanitizeInput_non_string (JsArg.numV k) rfl n
      rw [he]
      exact hempty n

/-! ## Claim C7 -/

/-- C7: for every input, the sanitizer output contains none of the characters
`< > { } [ ] \``, contains no whole-word occurrence of any denylist token
(case-insensitive, word-boundary matched — including when word removal joins
previously separated fragments), and has no leading or trailing whitespace. -/
theorem sanitize_output_clean (input : JsArg) (n : Nat) :
    (∀ ch ∈ (sanitizeInput input n).data, bannedChar ch = false) ∧
    containsDenyWord (sanitizeInput input n) = false ∧
    (∀ c, (sanitizeInput input n).data.head? = some c → jsWsChar c = false) ∧
    (∀ c, (sanitizeInput input n).data.getLast? = some c → jsWsChar c = false) := by
  obtain ⟨h1, h2, h3, h4, _⟩ := sanitizeFacts input n
  exact ⟨h1, h2, h3, h4⟩

/-- Witness for C7: concrete instance of the no-denylist-word guarantee. -/
theorem sanitize_output_clean_witness :
    containsDenyWord (sanitizeInput (JsArg.strV "  <b>Ignore th[e ru]les</b>  ") 200) = false :=
  (sanitize_output_clean (JsArg.strV "  <b>Ignore th[e ru]les</b>  ") 200).2.1

/-! ## Claim C10 -/

theorem strip_id_of_no_tok :
    ∀ (cs : List Char) (prevW : Bool), hasWordTokAux prevW cs = false →
      stripWordsAux prevW cs = cs := by
  intro cs
  induction cs with
  | nil => intro prevW _; simp [stripWordsAux]
  | cons c rest ih =>
      intro prevW h
      simp only [hasWordTokAux, Bool.or_eq_false_iff] at h
      obtain ⟨h1, h2⟩ := h
      by_cases hp : prevW = true
      · subst hp
        rw [stripWordsAux, if_pos rfl, ih _ h2]
      · have hp' : prevW = false := by simpa using hp
        subst hp'
        have hnone : tryMatchTok (c :: rest) = none := by
          simp only [Bool.not_false, Bool.true_and] at h1
          exact Option.not_isSome_iff_eq_none.mp (by simp [h1])
        rw [stripWordsAux]
        simp only [Bool.false_eq_true, if_false, hnone]
        rw [ih _ h2]

theorem dropWhile_id_of_head {p : Char → Bool} {l : List Char}
    (h : ∀ c, l.head? = some c → p c = false) : l.dropWhile p = l := by
  cases l with
  | nil => rfl
  | cons c rest =>
      rw [List.dropWhile_cons, if_neg]
      simp [h c rfl]

theorem trimStage_id {cs : List Char}
    (h1 : ∀ c, cs.head? = some c → jsWsChar c = false)
    (h2 : ∀ c, cs.getLast? = some c → jsWsChar c = false) : trimStage cs = cs := by
  have hrev : ∀ c, cs.reverse.head? = some c → jsWsChar c = false := by
    intro c hc
    rw [List.head?_reverse] at hc
    exact h2 c hc
  unfold trimStage
  rw [dropWhile_id_of_head h1, dropWhile_id_of_head hrev, List.reverse_reverse]

/-- C10: the sanitizer is idempotent — running it again on its own output (at
the same maxLength) truncates nothing, removes nothing and trims nothing. -/
theorem sanitize_idempotent (input : JsArg) (n : Nat) :
    sanitizeInput (JsArg.strV (sanitizeInput input n)) n = sanitizeInput input n := by
  obtain ⟨hban, htok, hhead, hlast, hlen⟩ := sanitizeFacts input n
  set out := sanitizeInput input n with hout
  by_cases he : out = ""
  · rw [he]
    rfl
  · rw [sanitizeInput, if_neg (by simp [JsArg.truthy, JsArg.isString, he])]
    show sanitizePipeline out n = out
    unfold sanitizePipeline
    have e1 : takeStage n out.data = out.data := by
      unfold takeStage
      exact List.take_of_length_le hlen
    have e2 : stripCharsStage out.data = out.data := by
      unfold stripCharsStage
      apply List.filter_eq_self.mpr
      intro a ha
      simp [hban a ha]
    have e3 : stripWordsStage out.data = out.data := by
      rw [stripWordsStage_eq]
      exact strip_id_of_no_tok out.data false htok
    have e4 : trimStage out.data = out.data := trimStage_id hhead hlast
    rw [e1, e2, e3, e4]

/-! ## JSON values

The model behind `JSON.parse` and `JSON.stringify` as used by the analyze
handler (src/index.js:210-235).  Numbers keep their source lexeme (adequate
here: no claim depends on numeric value identity).  Object fields keep
JavaScript property semantics for duplicate keys: the last value wins, the
first position is kept. -/

inductive JVal where
  | null : JVal
  | bool : Bool → JVal
  | num : String → JVal
  | str : String → JVal
  | arr : List JVal → JVal
  | obj : List (String × JVal) → JVal

/-- The whitespace accepted by the JSON grammar itself (note: strictly smaller
than the `String.prototype.trim` class `jsWsChar`). -/
def jsonWsChar (c : Char) : Bool :=
  c == ' ' || c == '\t' || c == '\n' || c == '\r'

def skipWs (cs : List Char) : List Char := cs.dropWhile jsonWsChar

def hexVal (c : Char) : Option Nat :=
  let n := c.toNat
  if 48 ≤ n ∧ n ≤ 57 then some (n - 48)
  else if 97 ≤ n ∧ n ≤ 102 then some (n - 97 + 10)
  else if 65 ≤ n ∧ n ≤ 70 then some (n - 65 + 10)
  else none

/-- Lowercase hex digit, as produced by `JSON.stringify` for control-character
escapes. -/
def hexDigit (n : Nat) : Char :=
  if n < 10 then Char.ofNat (48 + n) else Char.ofNat (97 + n - 10)

/-- Decode four hex digits into a code unit. -/
def decodeHex4 (h1 h2 h3 h4 : Char) : Option Nat :=
  match hexVal h1, hexVal h2, hexVal h3, hexVal h4 with
  | some a, some b, some c, some d => some (((a * 16 + b) * 16 + c) * 16 + d)
  | _, _, _, _ => none

/-- String-body lexer: consumes the characters of a JSON string after the
opening quote, decoding escapes, up to and including the closing quote.
Returns the decoded content and the remaining text.  Surrogate `\u` escapes
must pair up (Lean `Char` holds Unicode scalar values; JavaScript would accept
a lone surrogate, which no claim exercises). -/
def lexString : List Char → Option (List Char × List Char)
  | '"' :: r => some ([], r)
  | '\\' :: '"' :: r => (lexString r).map (fun p => ('"' :: p.1, p.2))
  | '\\' :: '\\' :: r => (lexString r).map (fun p => ('\\' :: p.1, p.2))
  | '\\' :: '/' :: r => (lexString r).map (fun p => ('/' :: p.1, p.2))
  | '\\' :: 'b' :: r => (lexString r).map (fun p => ('\x08' :: p.1, p.2))
  | '\\' :: 'f' :: r => (lexString r).map (fun p => ('\x0c' :: p.1, p.2))
  | '\\' :: 'n' :: r => (lexString r).map (fun p => ('\n' :: p.1, p.2))
  | '\\' :: 'r' :: r => (lexString r).map (fun p => ('\r' :: p.1, p.2))
  | '\\' :: 't' :: r => (lexString r).map (fun p => ('\t' :: p.1, p.2))
  | '\\' :: 'u' :: h1 :: h2 :: h3 :: h4 :: r =>
    match decodeHex4 h1 h2 h3 h4 with
    | none => none
    | some n =>
      if 0xD800 ≤ n ∧ n ≤ 0xDBFF then
        match r with
        | '\\' :: 'u' :: g1 :: g2 :: g3 :: g4 :: r2 =>
          match decodeHex4 g1 g2 g3 g4 with
          | none => none
          | some m =>
            if 0xDC00 ≤ m ∧ m ≤ 0xDFFF then
              (lexString r2).map (fun p =>
                (Char.ofNat (0x10000 + (n - 0xD800) * 0x400 + (m - 0xDC00)) :: p.1, p.2))
            else none
        | _ => none
      else if 0xDC00 ≤ n ∧ n ≤ 0xDFFF then none
      else (lexString r).map (fun p => (Char.ofNat n :: p.1, p.2))
  | '\\' :: _ => none
  | c :: r =>
    if c.toNat < 32 then none
    else (lexString r).map (fun p => (c :: p.1, p.2))
  | [] => none

def isDigitCh (c : Char) : Bool := 48 ≤ c.toNat && c.toNat ≤ 57

/-- Integer part of a JSON number: `0`, or a nonzero digit followed by
digits. -/
def lexIntPart : List Char → Option (List Char × List Char)
  | [] => none
  | c :: r =>
    if c == '0' then some (['0'], r)
    else if 49 ≤ c.toNat && c.toNat ≤ 57 then
      some (c :: r.takeWhile isDigitCh, r.dropWhile isDigitCh)
    else none

/-- Optional fraction part: `.` followed by one or more digits, else nothing
is consumed. -/
def lexFracPart (cs : List Char) : List Char × List Char :=
  match cs with
  | '.' :: r =>
    match r.takeWhile isDigitCh with
    | [] => ([], cs)
    | d => ('.' :: d, r.dropWhile isDigitCh)
  | _ => ([], cs)

/-- Optional exponent part: `e`/`E`, optional sign, one or more digits, else
nothing is consumed. -/
def lexExpPart : List Char → List Char × List Char
  | e :: s :: r2 =>
    if e == 'e' || e == 'E' then
      if s == '+' || s == '-' then
        match r2.takeWhile isDigitCh with
        | [] => ([], e :: s :: r2)
        | d => (e :: s :: d, r2.dropWhile isDigitCh)
      else
        match (s :: r2).takeWhile isDigitCh with
        | [] => ([], e :: s :: r2)
        | d => (e :: d, (s :: r2).dropWhile isDigitCh)
    else ([], e :: s :: r2)
  | cs => ([], cs)

/-- Number lexer following the JSON grammar
`-? (0 | [1-9][0-9]*) (\.[0-9]+)? ([eE][+-]?[0-9]+)?`; returns the lexeme and
the remaining text. -/
def lexNumber (cs : List Char) : Option (List Char × List Char) :=
  match cs with
  | '-' :: r =>
    match lexIntPart r with
    | none => none
    | some (ip, r1) =>
      let fp := lexFracPart r1
      let ep := lexExpPart fp.2
      some ('-' :: (ip ++ fp.1 ++ ep.1), ep.2)
  | _ =>
    match lexIntPart cs with
    | none => none
    | some (ip, r1) =>
      let fp := lexFracPart r1
      let ep := lexExpPart fp.2
      some (ip ++ fp.1 ++ ep.1, ep.2)

/-- JavaScript object-literal assignment semantics for a parsed member: if the
key already exists its value is replaced in place, otherwise the member is
appended. -/
def insertField (fs : List (String × JVal)) (k : String) (v : JVal) :
    List (String × JVal) :=
  match fs with
  | [] => [(k, v)]
  | (k0, v0) :: rest =>
    if k0 == k then (k0, v) :: rest
    else (k0, v0) :: insertField rest k v

mutual
/-- Value parser for `JSON.parse`, with fuel to make the recursion structural
(`parseJson` supplies enough fuel for any input). -/
def parseVal : Nat → List Char → Option (JVal × List Char)
  | 0, _ => none
  | f+1, cs =>
    match skipWs cs with
    | 'n' :: 'u' :: 'l' :: 'l' :: r => some (.null, r)
    | 't' :: 'r' :: 'u' :: 'e' :: r => some (.bool true, r)
    | 'f' :: 'a' :: 'l' :: 's' :: 'e' :: r => some (.bool false, r)
    | '"' :: r =>
      match lexString r with
      | some (sc, r1) => some (.str (String.mk sc), r1)
      | none => none
    | '[' :: r =>
      match skipWs r with
      | ']' :: r1 => some (.arr [], r1)
      | r1 =>
        match parseItems f r1 with
        | some (xs, r2) => some (.arr xs, r2)
        | none => none
    | '{' :: r =>
      match skipWs r with
      | '}' :: r1 => some (.obj [], r1)
      | r1 =>
        match parseFields f [] r1 with
        | some (fs, r2) => some (.obj fs, r2)
        | none => none
    | cs1 =>
      match lexNumber cs1 with
      | some (lex, r) => some (.num (String.mk lex), r)
      | none => none

/-- One-or-more comma-separated array elements followed by `]`. -/
def parseItems : Nat → List Char → Option (List JVal × List Char)
  | 0, _ => none
  | f+1, cs =>
    match parseVal f cs with
    | none => none
    | some (v, r) =>
      match skipWs r with
      | ',' :: r2 =>
        match parseItems f r2 with
        | some (vs, r3) => some (v :: vs, r3)
        | none => none
      | ']' :: r2 => some ([v], r2)
      | _ => none

/-- One-or-more `"key": value` members followed by `}`; members accumulate
into `acc` with JavaScript assignment semantics. -/
def parseFields : Nat → List (String × JVal) → List Char →
    Option (List (String × JVal) × List Char)
  | 0, _, _ => none
  | f+1, acc, cs =>
    match skipWs cs with
    | '"' :: r =>
      match lexString r with
      | none => none
      | some (k, r1) =>
        match skipWs r1 with
        | ':' :: r2 =>
          match parseVal f r2 with
          | none => none
          | some (v, r3) =>
            match skipWs r3 with
            | ',' :: r4 => parseFields f (insertField acc (String.mk k) v) r4
            | '}' :: r4 => some (insertField acc (String.mk k) v, r4)
            | _ => none
        | _ => none
    | _ => none
end

/-- `JSON.parse`: parse one JSON value, allowing surrounding whitespace and
requiring the whole text to be consumed. -/
def parseJsonL (cs : List Char) : Option JVal :=
  match parseVal (2 * cs.length + 2) cs with
  | some (v, r) => if skipWs r = [] then some v else none
  | none => none

def parseJson (s : String) : Option JVal := parseJsonL s.data

/-- The escape `JSON.stringify` applies to one string character. -/
def escChar (c : Char) : List Char :=
  if c == '"' then ['\\', '"']
  else if c == '\\' then ['\\', '\\']
  else if c == '\x08' then ['\\', 'b']
  else if c == '\x0c' then ['\\', 'f']
  else if c == '\n' then ['\\', 'n']
  else if c == '\r' then ['\\', 'r']
  else if c == '\t' then ['\\', 't']
  else if c.toNat < 32 then
    ['\\', 'u', '0', '0', hexDigit (c.toNat / 16), hexDigit (c.toNat % 16)]
  else [c]

def escapeChars : List Char → List Char
  | [] => []
  | c :: cs => escChar c ++ escapeChars cs

def printQString (s : List Char) : List Char := '"' :: escapeChars s ++ ['"']

mutual
/-- `JSON.stringify` (no indentation argument): minimal escaping, fields in
property order, no added whitespace.  A number value is reprinted from its
source lexeme; the real `JSON.stringify` prints the IEEE-754 double that
`JSON.parse` produced, which reproduces the lexeme exactly when it is a plain
integer in the double's exact range (the `safeIntLex` class below) but can
reformat it (`1.0` prints as `1`) or change its type (`1e999` overflows to
`Infinity`, which prints as `null`) otherwise.  Statements comparing a value
with its re-parsed serialisation therefore carry a `safeNums` hypothesis. -/
def printJson : JVal → List Char
  | .null => "null".data
  | .bool true => "true".data
  | .bool false => "false".data
  | .num lex => lex.data
  | .str sc => printQString sc.data
  | .arr xs => '[' :: printItems xs ++ [']']
  | .obj fs => '{' :: printFields fs ++ ['}']

def printItems : List JVal → List Char
  | [] => []
  | [v] => printJson v
  | v :: vs => printJson v ++ ',' :: printItems vs

def printFields : List (String × JVal) → List Char
  | [] => []
  | [(k, v)] => printQString k.data ++ ':' :: printJson v
  | (k, v) :: fs => printQString k.data ++ ':' :: printJson v ++ ',' :: printFields fs
end

def stringifyJson (v : JVal) : String := String.mk (printJson v)

/-! ## The two-phase extraction (src/index.js:210-230)

Phase 1 strips markdown fences with
`.replace(/\u0060\u0060\u0060json\n?/g, '').replace(/\u0060\u0060\u0060\n?/g, '')`, trims, and
tries `JSON.parse` on the result.  Phase 2, only on a phase-1 parse failure,
takes the greedy match of `/\{[\s\S]*\}/` on the *original* text and tries
`JSON.parse` on it. -/

/-- Global replace of /```json\n?/ with the empty string: scan left to
right, skip each occurrence of the literal pattern plus one optional newline,
continue after it.  Matching the two pattern shapes directly keeps the
function structurally recursive (so it reduces in the kernel). -/
def stripFenceJson : List Char → List Char
  | '`' :: '`' :: '`' :: 'j' :: 's' :: 'o' :: 'n' :: '\n' :: r => stripFenceJson r
  | '`' :: '`' :: '`' :: 'j' :: 's' :: 'o' :: 'n' :: r => stripFenceJson r
  | c :: cs => c :: stripFenceJson cs
  | [] => []

/-- Global replace of /```\n?/ with the empty string. -/
def stripFenceBare : List Char → List Char
  | '`' :: '`' :: '`' :: '\n' :: r => stripFenceBare r
  | '`' :: '`' :: '`' :: r => stripFenceBare r
  | c :: cs => c :: stripFenceBare cs
  | [] => []

/-- The fence stripping of phase 1 (src/index.js:212-215): first remove every
```json fence marker, then every bare ``` marker, each with an optional
trailing newline. -/
def stripFences (cs : List Char) : List Char := stripFenceBare (stripFenceJson cs)
/-- Phase 1 (src/index.js:212-217): strip fences, `.trim()` (the same
`String.prototype.trim` as in the sanitizer), then `JSON.parse`.  Whatever
value the parse yields — object, array or primitive — is the result; there is
no object-type check. -/
def phase1Parse (cs : List Char) : Option JVal :=
  parseJsonL (trimStage (stripFences cs))

/-- The greedy match of `/\{[\s\S]*\}/`: the span from the first `{` of the
text through the last `}` after it (which is the last `}` of the whole text
whenever a match exists); `none` when no such span exists.  Computed by
cutting everything before the first `{` and then everything after the last
`}` of the remainder. -/
def greedySpan (cs : List Char) : Option (List Char) :=
  match cs.dropWhile (fun c => !(c == '{')) with
  | [] => none
  | c :: rest =>
    match ((c :: rest).reverse.dropWhile (fun d => !(d == '}'))).reverse with
    | [] => none
    | sub => some sub

/-- The two-phase extraction of the analyze handler (src/index.js:210-230):
try the fence-stripped strict parse; on a parse failure only, try `JSON.parse`
on the greedy brace span of the *original* text.  `none` models the handler
responding 500 (`ExtractionError`). -/
def extractStructuredL (cs : List Char) : Option JVal :=
  match phase1Parse cs with
  | some v => some v
  | none =>
    match greedySpan cs with
    | some sub => parseJsonL sub
    | none => none

def extractStructured (s : String) : Option JVal := extractStructuredL s.data

/-- The post-extraction stamping `analysis.analyzedAt = new Date().toISOString()`
(src/index.js:232), with the timestamp a parameter.  On an object the property
is assigned (updated in place if present, appended otherwise).  On extracted
`null` the assignment throws `TypeError: Cannot set properties of null`, which
the handler's surrounding catch turns into a 500 response — modelled as
`none`.  On an array the assignment adds a non-index property that `res.json`
serialization drops again, and on the remaining primitives the assignment is a
silent no-op (the file is non-strict code), so those are modelled as returning
the value unchanged. -/
def stampAnalyzedAt (now : String) (v : JVal) : Option JVal :=
  match v with
  | .null => none
  | .obj fs => some (.obj (insertField fs "analyzedAt" (.str now)))
  | other => some other

/-- The response of the analyze handler after the upstream call: extraction
followed by exactly one stamping; `none` models every 500 path (extraction
failure, or the stamp throwing on `null`). -/
def analyzeRespond (now : String) (content : String) : Option JVal :=
  match extractStructured content with
  | some v => stampAnalyzedAt now v
  | none => none

theorem beq_of_not_not {c d : Char} (h : (!(c == d)) = false) : c = d := by
  rw [Bool.not_eq_false'] at h
  exact beq_iff_eq.mp h

theorem greedySpan_spec {cs sub : List Char} (h : greedySpan cs = some sub) :
    ∃ pre post, cs = pre ++ sub ++ post ∧ '{' ∉ pre ∧ '}' ∉ post ∧
      sub.head? = some '{' ∧ sub.getLast? = some '}' := by
  unfold greedySpan at h
  split at h
  · exact absurd h (by simp)
  · rename_i c rest hdw
    split at h
    · exact absurd h (by simp)
    · rename_i hrd
      have hsub : sub = ((c :: rest).reverse.dropWhile (fun d => !(d == '}'))).reverse :=
        (Option.some.inj h).symm
      subst hsub
      cases hx : ((c :: rest).reverse.dropWhile (fun d => !(d == '}'))).reverse with
      | nil => exact absurd hx hrd
      | cons s0 stail =>
          have hc : c = '{' := by
            apply beq_of_not_not
            apply head_dropWhile_not (p := fun x => !(x == '{')) (l := cs)
            rw [hdw]
            rfl
          have hpre : cs = cs.takeWhile (fun c => !(c == '{')) ++ (c :: rest) := by
            rw [← hdw, List.takeWhile_append_dropWhile]
          have hpre_no : '{' ∉ cs.takeWhile (fun c => !(c == '{')) := by
            intro hmem
            have := mem_takeWhile_pred hmem
            simp at this
          have hdwrev : (c :: rest).reverse.dropWhile (fun d => !(d == '}'))
              = (s0 :: stail).reverse := by
            rw [← hx, List.reverse_reverse]
          have hsplit2 : c :: rest = (s0 :: stail) ++
              ((c :: rest).reverse.takeWhile (fun d => !(d == '}'))).reverse := by
            conv_lhs => rw [← List.reverse_reverse (c :: rest),
              ← List.takeWhile_append_dropWhile (fun d => !(d == '}')) (c :: rest).reverse]
            rw [List.reverse_append, hdwrev, List.reverse_reverse]
          have hpost_no : '}' ∉
              ((c :: rest).reverse.takeWhile (fun d => !(d == '}'))).reverse := by
            intro hmem
            rw [List.mem_reverse] at hmem
            have := mem_takeWhile_pred hmem
            simp at this
          have hcs0 : c = s0 := by
            have h0 := congrArg List.head? hsplit2
            simp only [List.cons_append, List.head?_cons] at h0
            exact Option.some.inj h0
          have hhead : (s0 :: stail).head? = some '{' := by
            rw [List.head?_cons, ← hcs0, hc]
          obtain ⟨d, dtail, hd⟩ : ∃ d dtail, (s0 :: stail).reverse = d :: dtail := by
            cases hy : (s0 :: stail).reverse with
            | nil => exact absurd hy (by simp)
            | cons d dt => exact ⟨d, dt, rfl⟩
          have hdlast : (s0 :: stail).getLast? = some d := by
            have h2 := congrArg List.reverse hd
            rw [List.reverse_reverse] at h2
            rw [h2, List.getLast?_reverse]
            rfl
          have hdp : d = '}' := by
            apply beq_of_not_not
            apply head_dropWhile_not (p := fun x => !(x == '}')) (l := (c :: rest).reverse)
            rw [hdwrev, hd]
            rfl
          refine ⟨cs.takeWhile (fun c => !(c == '{')),
            ((c :: rest).reverse.takeWhile (fun d => !(d == '}'))).reverse,
            ?_, hpre_no, hpost_no, hhead, ?_⟩
          · rw [List.append_assoc, ← hsplit2]
            exact hpre
          · rw [hdlast, hdp]


/-! ## Claim C1 -/

/-- C1 counterexample: on `"[1,2]"` the phase-1 parse succeeds with an
*array*, and `extractStructured` returns that array; it does not proceed to
phase 2 (whose span does not even exist here — the text has no braces — so
under the claimed behaviour extraction would have failed). -/
theorem phase1_returns_nonobject :
    extractStructured "[1,2]" = some (JVal.arr [JVal.num "1", JVal.num "2"]) ∧
    phase1Parse "[1,2]".data = some (JVal.arr [JVal.num "1", JVal.num "2"]) ∧
    greedySpan "[1,2]".data = none :=
  ⟨rfl, rfl, rfl⟩

/-- C1 as amended: phase 1 returns whatever JSON value its parse yields —
object, array or primitive, with no object-type check — and the phase-2
greedy-brace fallback is attempted exactly when the phase-1 parse fails. -/
theorem phase1_no_object_check :
    (∀ (cs : List Char) (v : JVal), phase1Parse cs = some v →
      extractStructuredL cs = some v) ∧
    (∀ cs : List Char, phase1Parse cs = none →
      extractStructuredL cs =
        match greedySpan cs with
        | some sub => parseJsonL sub
        | none => none) := by
  constructor
  · intro cs v h
    unfold extractStructuredL
    rw [h]
  · intro cs h
    unfold extractStructuredL
    rw [h]

/-- Witness for C1's amended theorem at the concrete input. -/
theorem phase1_no_object_check_witness :
    extractStructuredL "[1,2]".data = some (JVal.arr [JVal.num "1", JVal.num "2"]) :=
  phase1_no_object_check.1 "[1,2]".data (JVal.arr [JVal.num "1", JVal.num "2"]) rfl

/-! ## Claim C4 -/

/-- C4: when phase 1 fails, phase 2 parses exactly the greedy span of the
*original unstripped* text — the substring from the first `{` of the whole
text to the last `}` (nothing before the span holds a `{`, nothing after it a
`}`) — even when that span encloses garbage between an inner valid object and
the last brace, as the concrete over-capturing input shows. -/
theorem phase2_on_original_greedy :
    (∀ cs : List Char, phase1Parse cs = none →
      extractStructuredL cs =
        match greedySpan cs with
        | some sub => parseJsonL sub
        | none => none) ∧
    (∀ cs sub : List Char, greedySpan cs = some sub →
      ∃ pre post, cs = pre ++ sub ++ post ∧ '{' ∉ pre ∧ '}' ∉ post ∧
        sub.head? = some '{' ∧ sub.getLast? = some '}') ∧
    (greedySpan "x \x7b\"a\":1\x7d y \x7d".data = some "\x7b\"a\":1\x7d y \x7d".data ∧
      extractStructured "x \x7b\"a\":1\x7d y \x7d" = none) := by
  refine ⟨?_, ?_, rfl, rfl⟩
  · intro cs h
    unfold extractStructuredL
    rw [h]
  · intro cs sub h
    exact greedySpan_spec h

/-- Witness for C4: on the over-capturing input, extraction is exactly the
parse of the greedy span (which fails). -/
theorem phase2_on_original_greedy_witness :
    extractStructuredL "x \x7b\"a\":1\x7d y \x7d".data =
      match greedySpan "x \x7b\"a\":1\x7d y \x7d".data with
      | some sub => parseJsonL sub
      | none => none :=
  phase2_on_original_greedy.1 "x \x7b\"a\":1\x7d y \x7d".data rfl

/-! ## Claim C5 -/

/-- C5: extraction fails (no value — the handler responds 500, and by the
`Option` result type no partial value can be returned) exactly when both
phases fail: the phase-1 parse fails and the phase-2 span is missing or fails
to parse.  A text without `{` or without `}` never has a span, and on the
spec's example `"no json here"` extraction indeed fails. -/
theorem extraction_error_iff :
    (∀ cs : List Char, extractStructuredL cs = none ↔
      (phase1Parse cs = none ∧
        ∀ sub, greedySpan cs = some sub → parseJsonL sub = none)) ∧
    (∀ cs : List Char, ('{' ∉ cs ∨ '}' ∉ cs) → greedySpan cs = none) ∧
    extractStructured "no json here" = none := by
  refine ⟨?_, ?_, rfl⟩
  · intro cs
    unfold extractStructuredL
    cases hp : phase1Parse cs with
    | some v =>
        exact ⟨fun hc => absurd hc (fun hx => Option.noConfusion hx),
          fun h2 => absurd h2.1 (fun hx => Option.noConfusion hx)⟩
    | none =>
        cases hg : greedySpan cs with
        | none => exact ⟨fun _ => ⟨rfl, fun sub hs => Option.noConfusion hs⟩, fun _ => rfl⟩
        | some sub =>
            constructor
            · intro hparse
              refine ⟨rfl, ?_⟩
              intro sub2 hsub2
              cases hsub2
              exact hparse
            · intro h2
              exact h2.2 sub rfl
  · intro cs h
    unfold greedySpan
    rcases h with h | h
    · have hnil : cs.dropWhile (fun c => !(c == '{')) = [] := by
        rw [List.dropWhile_eq_nil_iff]
        intro x hx
        show (!(x == '{')) = true
        simp only [Bool.not_eq_eq_eq_not, Bool.not_true, beq_eq_false_iff_ne]
        intro heq
        exact absurd (heq ▸ hx) h
      rw [hnil]
    · cases hdw : cs.dropWhile (fun c => !(c == '{')) with
      | nil => rfl
      | cons c rest =>
          have hsub : ∀ x ∈ c :: rest, x ∈ cs := by
            intro x hx
            exact (List.dropWhile_sublist _).subset (hdw ▸ hx)
          have hnil : (c :: rest).reverse.dropWhile (fun d => !(d == '}')) = [] := by
            rw [List.dropWhile_eq_nil_iff]
            intro x hx
            show (!(x == '}')) = true
            simp only [Bool.not_eq_eq_eq_not, Bool.not_true, beq_eq_false_iff_ne]
            intro heq
            exact absurd (hsub x (List.mem_reverse.mp hx)) (heq ▸ h)
          show (match ((c :: rest).reverse.dropWhile (fun d => !(d == '}'))).reverse with
                | [] => none
                | sub => some sub) = none
          rw [hnil]
          rfl

/-- Witness for C5: the failure-condition biconditional instantiated on the
spec's example. -/
theorem extraction_error_iff_witness :
    phase1Parse "no json here".data = none ∧
      (∀ sub, greedySpan "no json here".data = some sub → parseJsonL sub = none) :=
  (extraction_error_iff.1 "no json here".data).mp rfl

/-! ## Claim C8 -/

def lookupField : List (String × JVal) → String → Option JVal
  | [], _ => none
  | (k0, v0) :: rest, k => if k0 == k then some v0 else lookupField rest k

/-- C8 counterexample: when the extracted object already carries an
`analyzedAt` field, the stamp *overwrites* it in place — the field count does
not grow by one, and that field of the extracted object is changed. -/
theorem stamp_overwrites_existing :
    stampAnalyzedAt "NOW" (JVal.obj [("analyzedAt", JVal.str "old"), ("x", JVal.num "1")])
      = some (JVal.obj [("analyzedAt", JVal.str "NOW"), ("x", JVal.num "1")]) ∧
    ¬((insertField [("analyzedAt", JVal.str "old"), ("x", JVal.num "1")]
          "analyzedAt" (JVal.str "NOW")).length
        = [("analyzedAt", JVal.str "old"), ("x", JVal.num "1")].length + 1) :=
  ⟨rfl, by decide⟩

theorem insertField_lookup_other (fs : List (String × JVal)) (k q : String)
    (v : JVal) (hne : q ≠ k) :
    lookupField (insertField fs k v) q = lookupField fs q := by
  have hkq : (k == q) = false := by
    simp only [beq_eq_false_iff_ne]
    exact Ne.symm hne
  induction fs with
  | nil =>
      show (if k == q then some v else lookupField [] q) = none
      rw [if_neg (by simp [hkq])]
      rfl
  | cons hd rest ih =>
      obtain ⟨k0, v0⟩ := hd
      show lookupField
          (if k0 == k then (k0, v) :: rest else (k0, v0) :: insertField rest k v) q
        = (if k0 == q then some v0 else lookupField rest q)
      by_cases hk : k0 = k
      · rw [if_pos (beq_iff_eq.mpr hk)]
        have hq0 : (k0 == q) = false := by
          simp only [beq_eq_false_iff_ne]
          intro hc
          exact hne (hc.symm.trans hk)
        show (if k0 == q then some v else lookupField rest q)
          = (if k0 == q then some v0 else lookupField rest q)
        rw [hq0]
        simp
      · rw [if_neg (by simp [hk])]
        show (if k0 == q then some v0 else lookupField (insertField rest k v) q)
          = (if k0 == q then some v0 else lookupField rest q)
        by_cases hq : (k0 == q) = true
        · rw [if_pos hq, if_pos hq]
        · rw [if_neg hq, if_neg hq]
          exact ih

theorem insertField_lookup_self (fs : List (String × JVal)) (k : String) (v : JVal) :
    lookupField (insertField fs k v) k = some v := by
  induction fs with
  | nil => simp [insertField, lookupField]
  | cons hd rest ih =>
      obtain ⟨k0, v0⟩ := hd
      show lookupField
          (if k0 == k then (k0, v) :: rest else (k0, v0) :: insertField rest k v) k
        = some v
      by_cases hk : (k0 == k) = true
      · rw [if_pos hk]
        show (if k0 == k then some v else lookupField rest k) = some v
        rw [if_pos hk]
      · rw [if_neg hk]
        show (if k0 == k then some v0 else lookupField (insertField rest k v) k) = some v
        rw [if_neg hk]
        exact ih

theorem insertField_append_of_absent (fs : List (String × JVal)) (k : String)
    (v : JVal) (h : lookupField fs k = none) :
    insertField fs k v = fs ++ [(k, v)] := by
  induction fs with
  | nil => rfl
  | cons hd rest ih =>
      obtain ⟨k0, v0⟩ := hd
      have h' : (if k0 == k then some v0 else lookupField rest k) = none := h
      by_cases hk : (k0 == k) = true
      · rw [if_pos hk] at h'
        cases h'
      · rw [if_neg hk] at h'
        show (if k0 == k then (k0, v) :: rest else (k0, v0) :: insertField rest k v)
          = (k0, v0) :: rest ++ [(k, v)]
        rw [if_neg hk, ih h']
        rfl

/-- C8 as amended: after a successful extraction the handler runs exactly one
stamping assignment, and the response is its outcome.  When the extracted
value is `null` the assignment throws (`TypeError`), so the request fails with
500 despite the successful extraction; every other value is stamped and
returned.  On an object, every field other than `analyzedAt` is returned
unchanged, `analyzedAt` maps to the timestamp, and when the extracted object
had no `analyzedAt` field the stamp is one additional appended field; when it
had one, the value is overwritten in place. -/
theorem stamp_analyzedAt_frame :
    (∀ (now content : String) (o : JVal), extractStructured content = some o →
      analyzeRespond now content = stampAnalyzedAt now o) ∧
    (∀ now : String, stampAnalyzedAt now JVal.null = none) ∧
    (∀ (now : String) (o : JVal), o ≠ JVal.null →
      ∃ w, stampAnalyzedAt now o = some w) ∧
    (∀ (now : String) (fs : List (String × JVal)),
      stampAnalyzedAt now (JVal.obj fs)
          = some (JVal.obj (insertField fs "analyzedAt" (JVal.str now))) ∧
      (∀ q, q ≠ "analyzedAt" →
        lookupField (insertField fs "analyzedAt" (JVal.str now)) q = lookupField fs q) ∧
      lookupField (insertField fs "analyzedAt" (JVal.str now)) "analyzedAt"
          = some (JVal.str now) ∧
      (lookupField fs "analyzedAt" = none →
        insertField fs "analyzedAt" (JVal.str now) = fs ++ [("analyzedAt", JVal.str now)])) := by
  refine ⟨?_, fun now => rfl, ?_, ?_⟩
  · intro now content o h
    unfold analyzeRespond
    rw [h]
  · intro now o hno
    cases o with
    | null => exact absurd rfl hno
    | bool b => exact ⟨_, rfl⟩
    | num lex => exact ⟨_, rfl⟩
    | str s => exact ⟨_, rfl⟩
    | arr xs => exact ⟨_, rfl⟩
    | obj fs => exact ⟨_, rfl⟩
  · intro now fs
    exact ⟨rfl, fun q hq => insertField_lookup_other fs _ q _ hq,
      insertField_lookup_self fs _ _, insertField_append_of_absent fs _ _⟩

/-- Witness for C8's amended theorem: the stamp applied on a concrete
successful extraction, and the 500 outcome on a concrete extracted `null`. -/
theorem stamp_analyzedAt_frame_witness :
    analyzeRespond "2026-01-01T00:00:00.000Z" "\x7b\"a\":1\x7d"
      = stampAnalyzedAt "2026-01-01T00:00:00.000Z" (JVal.obj [("a", JVal.num "1")]) ∧
    analyzeRespond "2026-01-01T00:00:00.000Z" "null" = none := by
  constructor
  · exact stamp_analyzedAt_frame.1 "2026-01-01T00:00:00.000Z" "\x7b\"a\":1\x7d"
      (JVal.obj [("a", JVal.num "1")]) rfl
  · rw [stamp_analyzedAt_frame.1 "2026-01-01T00:00:00.000Z" "null" JVal.null rfl]
    exact stamp_analyzedAt_frame.2.1 "2026-01-01T00:00:00.000Z"

/-! ## Shape of JSON number lexemes

`NumShape` captures exactly the lexemes the number lexer can produce; it is
what the round-trip argument needs to re-lex a printed lexeme. -/

def AllDigits (l : List Char) : Prop := ∀ c ∈ l, isDigitCh c = true

def IntShape (ip : List Char) : Prop :=
  ip = ['0'] ∨ ∃ d ds, ip = d :: ds ∧ 49 ≤ d.toNat ∧ d.toNat ≤ 57 ∧ AllDigits ds

def FracShape (fp : List Char) : Prop :=
  fp = [] ∨ ∃ d ds, fp = '.' :: d :: ds ∧ isDigitCh d = true ∧ AllDigits ds

def ExpShape (ep : List Char) : Prop :=
  ep = [] ∨ ∃ e sg d ds, ep = e :: (sg ++ d :: ds) ∧ (e = 'e' ∨ e = 'E') ∧
    (sg = [] ∨ sg = ['+'] ∨ sg = ['-']) ∧ isDigitCh d = true ∧ AllDigits ds

def NumShape (lex : List Char) : Prop :=
  ∃ sg ip fp ep, (sg = [] ∨ sg = ['-']) ∧ IntShape ip ∧ FracShape fp ∧ ExpShape ep ∧
    lex = sg ++ ip ++ fp ++ ep

/-- The characters that may legally follow a complete number lexeme without
extending it (in the places the printer puts numbers these are `,`, `]`, `}`
or the end of the text). -/
def numBoundary (cs : List Char) : Prop :=
  ∀ c, cs.head? = some c → isDigitCh c = false ∧ c ≠ '.' ∧ c ≠ 'e' ∧ c ≠ 'E'

theorem numBoundary_nil : numBoundary [] := by
  intro c hc
  simp at hc

theorem numBoundary_cons {c : Char} {r : List Char} (h1 : isDigitCh c = false)
    (h2 : c ≠ '.') (h3 : c ≠ 'e') (h4 : c ≠ 'E') : numBoundary (c :: r) := by
  intro d hd
  simp at hd
  subst hd
  exact ⟨h1, h2, h3, h4⟩

theorem numBoundary_comma (r : List Char) : numBoundary (',' :: r) :=
  numBoundary_cons (by decide) (by decide) (by decide) (by decide)

theorem numBoundary_rbracket (r : List Char) : numBoundary (']' :: r) :=
  numBoundary_cons (by decide) (by decide) (by decide) (by decide)

theorem numBoundary_rbrace (r : List Char) : numBoundary ('}' :: r) :=
  numBoundary_cons (by decide) (by decide) (by decide) (by decide)

theorem takeWhile_digits_append {ds X : List Char} (h : AllDigits ds)
    (hX : ∀ c, X.head? = some c → isDigitCh c = false) :
    (ds ++ X).takeWhile isDigitCh = ds ∧ (ds ++ X).dropWhile isDigitCh = X := by
  induction ds with
  | nil =>
      cases X with
      | nil => exact ⟨rfl, rfl⟩
      | cons c r =>
          have := hX c rfl
          constructor
          · rw [List.nil_append, List.takeWhile_cons, if_neg (by simp [this])]
          · rw [List.nil_append, List.dropWhile_cons, if_neg (by simp [this])]
  | cons d ds ih =>
      have hd : isDigitCh d = true := h d (List.mem_cons_self _ _)
      have ih2 := ih (fun c hc => h c (List.mem_cons_of_mem _ hc))
      constructor
      · rw [List.cons_append, List.takeWhile_cons, if_pos (by simp [hd]), ih2.1]
      · rw [List.cons_append, List.dropWhile_cons, if_pos (by simp [hd]), ih2.2]

/-- Re-lexing a shaped integer part: consumption stops exactly at the
boundary. -/
theorem lexIntPart_shaped {ip X : List Char} (h : IntShape ip)
    (hX : ∀ c, X.head? = some c → isDigitCh c = false) :
    lexIntPart (ip ++ X) = some (ip, X) := by
  rcases h with rfl | ⟨d, ds, rfl, hlo, hhi, hds⟩
  · rfl
  · have hd0 : (d == '0') = false := by
      simp only [beq_eq_false_iff_ne]
      intro hc
      subst hc
      simp at hlo
    show (if (d == '0') = true then some (['0'], ds ++ X)
          else if (49 ≤ d.toNat && d.toNat ≤ 57) = true then
            some (d :: (ds ++ X).takeWhile isDigitCh, (ds ++ X).dropWhile isDigitCh)
          else none) = some (d :: ds, X)
    rw [if_neg (by simp [hd0]), if_pos (by simp [hlo, hhi])]
    have hta := takeWhile_digits_append hds hX
    rw [hta.1, hta.2]

/-- Re-lexing at a position where no fraction part starts. -/
theorem lexFracPart_none {X : List Char}
    (hX : ∀ c, X.head? = some c → c ≠ '.') :
    lexFracPart X = ([], X) := by
  cases X with
  | nil => rfl
  | cons c r =>
      have hc := hX c rfl
      unfold lexFracPart
      split
      · rename_i r0 heq
        injection heq with h1 h2
        exact absurd h1 hc
      · rfl

/-- Re-lexing a shaped fraction part. -/
theorem lexFracPart_shaped {fp X : List Char} (h : FracShape fp)
    (hXd : ∀ c, X.head? = some c → isDigitCh c = false)
    (hXdot : ∀ c, X.head? = some c → c ≠ '.') :
    lexFracPart (fp ++ X) = (fp, X) := by
  rcases h with rfl | ⟨d, ds, rfl, hd, hds⟩
  · exact lexFracPart_none hXdot
  · have hta := @takeWhile_digits_append (d :: ds) X (by
      intro c hc
      rcases List.mem_cons.mp hc with rfl | hc
      · exact hd
      · exact hds c hc) hXd
    show (match ((d :: ds) ++ X).takeWhile isDigitCh with
          | [] => (([] : List Char), '.' :: ((d :: ds) ++ X))
          | d2 => ('.' :: d2, ((d :: ds) ++ X).dropWhile isDigitCh))
        = ('.' :: d :: ds, X)
    rw [hta.1, hta.2]

theorem digit_not_sign {d : Char} (hd : isDigitCh d = true) :
    (d == '+' || d == '-') = false := by
  simp only [isDigitCh, Bool.and_eq_true, decide_eq_true_eq] at hd
  simp only [Bool.or_eq_false_iff, beq_eq_false_iff_ne]
  constructor
  · intro hc
    subst hc
    exact absurd hd (by decide)
  · intro hc
    subst hc
    exact absurd hd (by decide)

theorem head?_append_or {a b : List Char} {c : Char}
    (h : (a ++ b).head? = some c) : a.head? = some c ∨ (a = [] ∧ b.head? = some c) := by
  cases a with
  | nil => exact Or.inr ⟨rfl, by simpa using h⟩
  | cons x xs => exact Or.inl (by simpa using h)

theorem lexExpPart_none {X : List Char}
    (hX : ∀ c, X.head? = some c → c ≠ 'e' ∧ c ≠ 'E') :
    lexExpPart X = ([], X) := by
  match X with
  | [] => rfl
  | [c] => rfl
  | c :: s :: r2 =>
      have hc := hX c rfl
      have hcc : (c == 'e' || c == 'E') = false := by
        simp only [Bool.or_eq_false_iff, beq_eq_false_iff_ne]
        exact hc
      rw [lexExpPart, if_neg (by simp [hcc])]

theorem lexExpPart_shaped {ep X : List Char} (h : ExpShape ep)
    (hXd : ∀ c, X.head? = some c → isDigitCh c = false)
    (hXe : ∀ c, X.head? = some c → c ≠ 'e' ∧ c ≠ 'E') :
    lexExpPart (ep ++ X) = (ep, X) := by
  rcases h with rfl | ⟨e, sg, d, ds, rfl, he, hsg, hd, hds⟩
  · exact lexExpPart_none hXe
  · have hee : (e == 'e' || e == 'E') = true := by
      rcases he with rfl | rfl <;> simp
    have hta := @takeWhile_digits_append (d :: ds) X (by
      intro c hc
      rcases List.mem_cons.mp hc with rfl | hc
      · exact hd
      · exact hds c hc) hXd
    simp only [List.cons_append] at hta
    have hsd := digit_not_sign hd
    rcases hsg with rfl | rfl | rfl
    · simp only [List.nil_append, List.cons_append]
      rw [lexExpPart, if_pos hee, if_neg (by simp [hsd]), hta.1, hta.2]
    · simp only [List.cons_append, List.nil_append]
      rw [lexExpPart, if_pos hee, if_pos (by simp), hta.1, hta.2]
    · simp only [List.cons_append, List.nil_append]
      rw [lexExpPart, if_pos hee, if_pos (by simp), hta.1, hta.2]

/-- `lexNumber` on text not starting with `-` goes straight to the integer
part. -/
theorem lexNumber_not_neg {c : Char} {r : List Char} (hc : c ≠ '-') :
    lexNumber (c :: r) =
      match lexIntPart (c :: r) with
      | none => none
      | some (ip, r1) =>
        let fp := lexFracPart r1
        let ep := lexExpPart fp.2
        some (ip ++ fp.1 ++ ep.1, ep.2) := by
  unfold lexNumber
  split
  · rename_i r2 heq
    injection heq with h1 h2
    exact absurd h1 hc
  · rfl

/-- Re-lexing a shaped number lexeme followed by a boundary consumes exactly
the lexeme. -/
theorem lexNumber_shaped {lex X : List Char} (h : NumShape lex)
    (hX : numBoundary X) : lexNumber (lex ++ X) = some (lex, X) := by
  obtain ⟨sg, ip, fp, ep, hsg, hip, hfp, hep, rfl⟩ := h
  have hXd : ∀ c, X.head? = some c → isDigitCh c = false :=
    fun c hc => ((hX c hc).1)
  have hXdot : ∀ c, X.head? = some c → c ≠ '.' :=
    fun c hc => ((hX c hc).2.1)
  have hXe : ∀ c, X.head? = some c → c ≠ 'e' ∧ c ≠ 'E' :=
    fun c hc => ⟨(hX c hc).2.2.1, (hX c hc).2.2.2⟩
  -- head facts for the optional parts
  have hfp_head : ∀ c, fp.head? = some c → c = '.' := by
    intro c hc
    rcases hfp with rfl | ⟨d, ds, rfl, _, _⟩
    · simp at hc
    · simp at hc
      exact hc.symm
  have hep_head : ∀ c, ep.head? = some c → (c = 'e' ∨ c = 'E') := by
    intro c hc
    rcases hep with rfl | ⟨e, sg2, d, ds, rfl, he, _, _, _⟩
    · simp at hc
    · simp at hc
      exact hc ▸ he
  -- after the integer part: never a digit
  have h1 : ∀ c, (fp ++ (ep ++ X)).head? = some c → isDigitCh c = false := by
    intro c hc
    rcases head?_append_or hc with hc1 | ⟨hfpe, hc1⟩
    · have := hfp_head c hc1
      subst this
      decide
    · rcases head?_append_or hc1 with hc2 | ⟨hepe, hc2⟩
      · rcases hep_head c hc2 with rfl | rfl <;> decide
      · exact hXd c hc2
  -- after the fraction part: never a digit, never '.'
  have h2 : ∀ c, (ep ++ X).head? = some c → isDigitCh c = false := by
    intro c hc
    rcases head?_append_or hc with hc1 | ⟨hepe, hc1⟩
    · rcases hep_head c hc1 with rfl | rfl <;> decide
    · exact hXd c hc1
  have h3 : ∀ c, (ep ++ X).head? = some c → c ≠ '.' := by
    intro c hc
    rcases head?_append_or hc with hc1 | ⟨hepe, hc1⟩
    · rcases hep_head c hc1 with rfl | rfl <;> decide
    · exact hXdot c hc1
  have hint := lexIntPart_shaped hip h1
  have hfrac := lexFracPart_shaped hfp h2 h3
  have hexp := lexExpPart_shaped hep hXd hXe
  have hip_head : ∃ d r0, ip = d :: r0 ∧ d ≠ '-' := by
    rcases hip with rfl | ⟨d, ds, rfl, hlo, _, _⟩
    · exact ⟨'0', [], rfl, by decide⟩
    · refine ⟨d, ds, rfl, ?_⟩
      intro hc
      subst hc
      simp at hlo
  rcases hsg with rfl | rfl
  · obtain ⟨d, r0, hipe, hdneg⟩ := hip_head
    simp only [List.nil_append, List.append_assoc]
    rw [hipe, List.cons_append, lexNumber_not_neg hdneg, ← List.cons_append, ← hipe]
    rw [show ip ++ (fp ++ (ep ++ X)) = ip ++ (fp ++ (ep ++ X)) from rfl]
    rw [hint]
    simp only [hfrac, hexp, List.append_assoc]
  · simp only [List.cons_append, List.nil_append, List.append_assoc]
    rw [show lexNumber ('-' :: (ip ++ (fp ++ (ep ++ X)))) =
      match lexIntPart (ip ++ (fp ++ (ep ++ X))) with
      | none => none
      | some (ip2, r1) =>
        let fp2 := lexFracPart r1
        let ep2 := lexExpPart fp2.2
        some ('-' :: (ip2 ++ fp2.1 ++ ep2.1), ep2.2) from rfl]
    rw [hint]
    simp only [hfrac, hexp, List.append_assoc]

/-- Everything `lexIntPart` accepts has the integer-part shape and is
consumed exactly. -/
theorem lexIntPart_analysis {cs ip r : List Char}
    (h : lexIntPart cs = some (ip, r)) : IntShape ip ∧ cs = ip ++ r := by
  cases cs with
  | nil => simp [lexIntPart] at h
  | cons c r0 =>
      rw [lexIntPart] at h
      by_cases h0 : (c == '0') = true
      · rw [if_pos h0] at h
        simp only [Option.some.injEq, Prod.mk.injEq] at h
        obtain ⟨h1, h2⟩ := h
        subst h1
        subst h2
        exact ⟨Or.inl rfl, by rw [beq_iff_eq.mp h0]; rfl⟩
      · rw [if_neg h0] at h
        by_cases h19 : (49 ≤ c.toNat && c.toNat ≤ 57) = true
        · rw [if_pos h19] at h
          simp only [Option.some.injEq, Prod.mk.injEq] at h
          obtain ⟨h1, h2⟩ := h
          subst h1
          subst h2
          simp only [Bool.and_eq_true, decide_eq_true_eq] at h19
          refine ⟨Or.inr ⟨c, r0.takeWhile isDigitCh, rfl, h19.1, h19.2, ?_⟩, ?_⟩
          · intro x hx
            exact mem_takeWhile_pred hx
          · rw [List.cons_append, List.takeWhile_append_dropWhile]
        · rw [if_neg h19] at h
          exact absurd h (by simp)

/-- Everything `lexFracPart` returns has the fraction-part shape and is
consumed exactly. -/
theorem lexFracPart_analysis {cs fp r : List Char}
    (h : lexFracPart cs = (fp, r)) : FracShape fp ∧ cs = fp ++ r := by
  unfold lexFracPart at h
  split at h
  · rename_i r0
    split at h
    · simp only [Prod.mk.injEq] at h
      obtain ⟨h1, h2⟩ := h
      subst h1
      subst h2
      exact ⟨Or.inl rfl, rfl⟩
    · rename_i hne
      simp only [Prod.mk.injEq] at h
      obtain ⟨h1, h2⟩ := h
      subst h1
      subst h2
      cases htw : r0.takeWhile isDigitCh with
      | nil => exact absurd htw hne
      | cons dd dds =>
          have hdd : dd ∈ r0.takeWhile isDigitCh := by
            rw [htw]
            exact List.mem_cons_self _ _
          have hdds : ∀ x ∈ dds, x ∈ r0.takeWhile isDigitCh := by
            intro x hx
            rw [htw]
            exact List.mem_cons_of_mem _ hx
          constructor
          · exact Or.inr ⟨dd, dds, rfl, mem_takeWhile_pred hdd,
              fun x hx => mem_takeWhile_pred (hdds x hx)⟩
          · rw [← htw, List.cons_append, List.takeWhile_append_dropWhile]
  · simp only [Prod.mk.injEq] at h
    obtain ⟨h1, h2⟩ := h
    subst h1
    subst h2
    exact ⟨Or.inl rfl, rfl⟩

/-- Everything `lexExpPart` returns has the exponent-part shape and is
consumed exactly. -/
theorem lexExpPart_analysis {cs ep r : List Char}
    (h : lexExpPart cs = (ep, r)) : ExpShape ep ∧ cs = ep ++ r := by
  unfold lexExpPart at h
  split at h
  · rename_i e s0 r2
    by_cases hee : (e == 'e' || e == 'E') = true
    · rw [if_pos hee] at h
      have he2 : e = 'e' ∨ e = 'E' := by
        rcases Bool.or_eq_true_iff.mp hee with hx | hx
        · exact Or.inl (beq_iff_eq.mp hx)
        · exact Or.inr (beq_iff_eq.mp hx)
      by_cases hsgn : (s0 == '+' || s0 == '-') = true
      · rw [if_pos hsgn] at h
        have hs2 : s0 = '+' ∨ s0 = '-' := by
          rcases Bool.or_eq_true_iff.mp hsgn with hx | hx
          · exact Or.inl (beq_iff_eq.mp hx)
          · exact Or.inr (beq_iff_eq.mp hx)
        split at h
        · simp only [Prod.mk.injEq] at h
          obtain ⟨h1, h2⟩ := h
          subst h1
          subst h2
          exact ⟨Or.inl rfl, rfl⟩
        · rename_i hne
          simp only [Prod.mk.injEq] at h
          obtain ⟨h1, h2⟩ := h
          subst h1
          subst h2
          cases htw : r2.takeWhile isDigitCh with
          | nil => exact absurd htw hne
          | cons dd dds =>
              have hdd : dd ∈ r2.takeWhile isDigitCh := by
                rw [htw]
                exact List.mem_cons_self _ _
              have hdds : ∀ x ∈ dds, x ∈ r2.takeWhile isDigitCh := by
                intro x hx
                rw [htw]
                exact List.mem_cons_of_mem _ hx
              constructor
              · refine Or.inr ⟨e, [s0], dd, dds, by simp, he2, ?_,
                  mem_takeWhile_pred hdd,
                  fun x hx => mem_takeWhile_pred (hdds x hx)⟩
                rcases hs2 with rfl | rfl
                · exact Or.inr (Or.inl rfl)
                · exact Or.inr (Or.inr rfl)
              · rw [← htw, List.cons_append, List.cons_append,
                  List.takeWhile_append_dropWhile]
      · rw [if_neg hsgn] at h
        split at h
        · simp only [Prod.mk.injEq] at h
          obtain ⟨h1, h2⟩ := h
          subst h1
          subst h2
          exact ⟨Or.inl rfl, rfl⟩
        · rename_i hne
          simp only [Prod.mk.injEq] at h
          obtain ⟨h1, h2⟩ := h
          subst h1
          subst h2
          cases htw : (s0 :: r2).takeWhile isDigitCh with
          | nil => exact absurd htw hne
          | cons dd dds =>
              have hdd : dd ∈ (s0 :: r2).takeWhile isDigitCh := by
                rw [htw]
                exact List.mem_cons_self _ _
              have hdds : ∀ x ∈ dds, x ∈ (s0 :: r2).takeWhile isDigitCh := by
                intro x hx
                rw [htw]
                exact List.mem_cons_of_mem _ hx
              constructor
              · exact Or.inr ⟨e, [], dd, dds, by simp, he2, Or.inl rfl,
                  mem_takeWhile_pred hdd,
                  fun x hx => mem_takeWhile_pred (hdds x hx)⟩
              · rw [← htw, List.cons_append, List.takeWhile_append_dropWhile]
    · rw [if_neg hee] at h
      simp only [Prod.mk.injEq] at h
      obtain ⟨h1, h2⟩ := h
      subst h1
      subst h2
      exact ⟨Or.inl rfl, rfl⟩
  · simp only [Prod.mk.injEq] at h
    obtain ⟨h1, h2⟩ := h
    subst h1
    subst h2
    exact ⟨Or.inl rfl, rfl⟩

/-- Everything `lexNumber` accepts is a shaped lexeme, consumed exactly. -/
theorem lexNumber_analysis {cs lex r : List Char}
    (h : lexNumber cs = some (lex, r)) : NumShape lex ∧ cs = lex ++ r := by
  unfold lexNumber at h
  split at h
  · rename_i r0
    split at h
    · exact absurd h (by simp)
    · rename_i ip r1 heq
      rcases hfr : lexFracPart r1 with ⟨fp1, r2⟩
      rcases hex : lexExpPart r2 with ⟨ep1, r3⟩
      simp only [hfr, hex, Option.some.injEq, Prod.mk.injEq] at h
      obtain ⟨h1, h2⟩ := h
      subst h1
      subst h2
      obtain ⟨hi1, hi2⟩ := lexIntPart_analysis heq
      obtain ⟨hf1, hf2⟩ := lexFracPart_analysis hfr
      obtain ⟨he1, he2⟩ := lexExpPart_analysis hex
      refine ⟨⟨['-'], ip, fp1, ep1, Or.inr rfl, hi1, hf1, he1, by simp [List.append_assoc]⟩, ?_⟩
      rw [List.cons_append]
      rw [hi2, hf2, he2]
      simp [List.append_assoc]
  · split at h
    · exact absurd h (by simp)
    · rename_i ip r1 heq
      rcases hfr : lexFracPart r1 with ⟨fp1, r2⟩
      rcases hex : lexExpPart r2 with ⟨ep1, r3⟩
      simp only [hfr, hex, Option.some.injEq, Prod.mk.injEq] at h
      obtain ⟨h1, h2⟩ := h
      subst h1
      subst h2
      obtain ⟨hi1, hi2⟩ := lexIntPart_analysis heq
      obtain ⟨hf1, hf2⟩ := lexFracPart_analysis hfr
      obtain ⟨he1, he2⟩ := lexExpPart_analysis hex
      refine ⟨⟨[], ip, fp1, ep1, Or.inl rfl, hi1, hf1, he1, by simp [List.append_assoc]⟩, ?_⟩
      rw [hi2, hf2, he2]
      simp [List.append_assoc]

theorem hexVal_hexDigit {n : Nat} (h : n < 16) : hexVal (hexDigit n) = some n := by
  interval_cases n <;> decide

set_option maxHeartbeats 1600000 in
theorem lexString_u00 {c : Char} (h : c.toNat < 32) (r : List Char) :
    lexString ('\\' :: 'u' :: '0' :: '0' ::
        hexDigit (c.toNat / 16) :: hexDigit (c.toNat % 16) :: r)
      = (lexString r).map (fun p => (c :: p.1, p.2)) := by
  have e3 : hexVal (hexDigit (c.toNat / 16)) = some (c.toNat / 16) :=
    hexVal_hexDigit (by omega)
  have e4 : hexVal (hexDigit (c.toNat % 16)) = some (c.toNat % 16) :=
    hexVal_hexDigit (by omega)
  have hv0 : hexVal '0' = some 0 := by decide
  simp only [lexString, decodeHex4, e3, e4, hv0]
  have hn : ((0 * 16 + 0) * 16 + c.toNat / 16) * 16 + c.toNat % 16 = c.toNat := by omega
  rw [hn]
  rw [if_neg (by omega), if_neg (by omega), Char.ofNat_toNat]

theorem lexString_other {c : Char} (h1 : c ≠ '"') (h2 : c ≠ '\\') (r : List Char) :
    lexString (c :: r) =
      (if c.toNat < 32 then none
       else (lexString r).map (fun p => (c :: p.1, p.2))) := by
  unfold lexString
  split
  all_goals rename_i heq
  all_goals first
    | (injection heq
       done)
    | (injection heq with hx hy
       first
         | exact absurd hx h1
         | exact absurd hx h2
         | (subst hx
            subst hy
            rw [← lexString.eq_def]))

theorem lexString_roundtrip (sc rest : List Char) :
    lexString (escapeChars sc ++ '"' :: rest) = some (sc, rest) := by
  induction sc with
  | nil => rfl
  | cons c cs ih =>
    show lexString ((escChar c ++ escapeChars cs) ++ '"' :: rest) = some (c :: cs, rest)
    rw [List.append_assoc]
    by_cases h1 : c = '"'
    · subst h1
      show (lexString (escapeChars cs ++ '"' :: rest)).map
          (fun p => ('"' :: p.1, p.2)) = some ('"' :: cs, rest)
      rw [ih]; rfl
    by_cases h2 : c = '\\'
    · subst h2
      show (lexString (escapeChars cs ++ '"' :: rest)).map
          (fun p => ('\\' :: p.1, p.2)) = some ('\\' :: cs, rest)
      rw [ih]; rfl
    by_cases h3 : c = '\x08'
    · subst h3
      show (lexString (escapeChars cs ++ '"' :: rest)).map
          (fun p => ('\x08' :: p.1, p.2)) = some ('\x08' :: cs, rest)
      rw [ih]; rfl
    by_cases h4 : c = '\x0c'
    · subst h4
      show (lexString (escapeChars cs ++ '"' :: rest)).map
          (fun p => ('\x0c' :: p.1, p.2)) = some ('\x0c' :: cs, rest)
      rw [ih]; rfl
    by_cases h5 : c = '\n'
    · subst h5
      show (lexString (escapeChars cs ++ '"' :: rest)).map
          (fun p => ('\n' :: p.1, p.2)) = some ('\n' :: cs, rest)
      rw [ih]; rfl
    by_cases h6 : c = '\r'
    · subst h6
      show (lexString (escapeChars cs ++ '"' :: rest)).map
          (fun p => ('\r' :: p.1, p.2)) = some ('\r' :: cs, rest)
      rw [ih]; rfl
    by_cases h7 : c = '\t'
    · subst h7
      show (lexString (escapeChars cs ++ '"' :: rest)).map
          (fun p => ('\t' :: p.1, p.2)) = some ('\t' :: cs, rest)
      rw [ih]; rfl
    by_cases h8 : c.toNat < 32
    · have hesc : escChar c =
          ['\\', 'u', '0', '0', hexDigit (c.toNat / 16), hexDigit (c.toNat % 16)] := by
        unfold escChar
        rw [if_neg (by simpa using h1), if_neg (by simpa using h2),
            if_neg (by simpa using h3), if_neg (by simpa using h4),
            if_neg (by simpa using h5), if_neg (by simpa using h6),
            if_neg (by simpa using h7), if_pos h8]
      rw [hesc]
      show lexString ('\\' :: 'u' :: '0' :: '0' ::
          hexDigit (c.toNat / 16) :: hexDigit (c.toNat % 16) ::
          (escapeChars cs ++ '"' :: rest)) = some (c :: cs, rest)
      rw [lexString_u00 h8, ih]
      rfl
    · have hesc : escChar c = [c] := by
        unfold escChar
        rw [if_neg (by simpa using h1), if_neg (by simpa using h2),
            if_neg (by simpa using h3), if_neg (by simpa using h4),
            if_neg (by simpa using h5), if_neg (by simpa using h6),
            if_neg (by simpa using h7), if_neg h8]
      rw [hesc]
      show lexString (c :: (escapeChars cs ++ '"' :: rest)) = some (c :: cs, rest)
      rw [lexString_other h1 h2, if_neg h8, ih]
      rfl


/-! ## Well-formedness of parsed values

Every value `JSON.parse` can produce has number lexemes that follow the JSON
number grammar and objects with pairwise-distinct keys (duplicates collapse via
`insertField`).  These two facts are what make re-serialisation re-parseable. -/

inductive WfJ : JVal → Prop
  | null : WfJ .null
  | bool (b : Bool) : WfJ (.bool b)
  | num (lex : String) : NumShape lex.data → WfJ (.num lex)
  | str (s : String) : WfJ (.str s)
  | arr (xs : List JVal) : (∀ v ∈ xs, WfJ v) → WfJ (.arr xs)
  | obj (fs : List (String × JVal)) : (∀ kv ∈ fs, WfJ kv.2) →
      (fs.map Prod.fst).Nodup → WfJ (.obj fs)

theorem mem_insertField {fs : List (String × JVal)} {k : String} {v : JVal}
    {kv : String × JVal} (h : kv ∈ insertField fs k v) : kv ∈ fs ∨ kv = (k, v) := by
  induction fs with
  | nil =>
    simp only [insertField, List.mem_singleton] at h
    exact Or.inr h
  | cons a rest ih =>
    rcases a with ⟨k0, v0⟩
    unfold insertField at h
    by_cases hk : (k0 == k) = true
    · rw [if_pos hk] at h
      rcases List.mem_cons.mp h with h2 | h2
      · subst h2
        exact Or.inr (by rw [beq_iff_eq.mp hk])
      · exact Or.inl (List.mem_cons_of_mem _ h2)
    · rw [if_neg hk] at h
      rcases List.mem_cons.mp h with h2 | h2
      · subst h2
        exact Or.inl (List.mem_cons_self _ _)
      · rcases ih h2 with h3 | h3
        · exact Or.inl (List.mem_cons_of_mem _ h3)
        · exact Or.inr h3

theorem insertField_keys (fs : List (String × JVal)) (k : String) (v : JVal) :
    (insertField fs k v).map Prod.fst =
      if k ∈ fs.map Prod.fst then fs.map Prod.fst
      else fs.map Prod.fst ++ [k] := by
  induction fs with
  | nil => simp [insertField]
  | cons a rest ih =>
    rcases a with ⟨k0, v0⟩
    by_cases hk : k0 = k
    · subst hk
      simp [insertField]
    · have hk2 : (k0 == k) = false := by
        simp only [beq_eq_false_iff_ne]
        exact hk
      have hmem : (k ∈ k0 :: rest.map Prod.fst) = (k ∈ rest.map Prod.fst) := by
        simp [List.mem_cons, Ne.symm hk]
      simp only [insertField, hk2, Bool.false_eq_true, if_false, List.map_cons, ih, hmem]
      split
      · rfl
      · simp

theorem insertField_nodup {fs : List (String × JVal)} {k : String} {v : JVal}
    (h : (fs.map Prod.fst).Nodup) : ((insertField fs k v).map Prod.fst).Nodup := by
  rw [insertField_keys]
  split
  · exact h
  · rename_i hk
    refine List.Nodup.append h (List.nodup_singleton k) ?_
    intro x hx1 hx2
    simp only [List.mem_singleton] at hx2
    subst hx2
    exact hk hx1

theorem parse_wf (f : Nat) :
    (∀ cs v r, parseVal f cs = some (v, r) → WfJ v)
  ∧ (∀ cs xs r, parseItems f cs = some (xs, r) → ∀ v ∈ xs, WfJ v)
  ∧ (∀ acc cs fs r, (∀ kv ∈ acc, WfJ kv.2) → ((acc.map Prod.fst).Nodup) →
       parseFields f acc cs = some (fs, r) →
       (∀ kv ∈ fs, WfJ kv.2) ∧ (fs.map Prod.fst).Nodup) := by
  induction f with
  | zero =>
    refine ⟨?_, ?_, ?_⟩
    · intro cs v r h
      exact Option.noConfusion h
    · intro cs xs r h
      exact Option.noConfusion h
    · intro acc cs fs r _ _ h
      exact Option.noConfusion h
  | succ f ih =>
    obtain ⟨ihV, ihI, ihF⟩ := ih
    refine ⟨?_, ?_, ?_⟩
    · intro cs v r h
      rw [parseVal] at h
      split at h
      · injection h with h1
        injection h1 with h1 h2
        subst h1
        exact WfJ.null
      · injection h with h1
        injection h1 with h1 h2
        subst h1
        exact WfJ.bool true
      · injection h with h1
        injection h1 with h1 h2
        subst h1
        exact WfJ.bool false
      · split at h
        · rename_i sc r1 hlex
          injection h with h1
          injection h1 with h1 h2
          subst h1
          exact WfJ.str _
        · exact Option.noConfusion h
      · split at h
        · injection h with h1
          injection h1 with h1 h2
          subst h1
          exact WfJ.arr [] (by intro v hv; simp at hv)
        · split at h
          · rename_i xs r2 hitems
            injection h with h1
            injection h1 with h1 h2
            subst h1
            exact WfJ.arr xs (ihI _ _ _ hitems)
          · exact Option.noConfusion h
      · split at h
        · injection h with h1
          injection h1 with h1 h2
          subst h1
          exact WfJ.obj [] (by intro kv hkv; simp at hkv) (by simp)
        · split at h
          · rename_i fs2 r2 hfields
            injection h with h1
            injection h1 with h1 h2
            subst h1
            have := ihF [] _ _ _ (by intro kv hkv; simp at hkv) (by simp) hfields
            exact WfJ.obj fs2 this.1 this.2
          · exact Option.noConfusion h
      · split at h
        · rename_i lex r0 hnum
          injection h with h1
          injection h1 with h1 h2
          subst h1
          exact WfJ.num _ (lexNumber_analysis hnum).1
        · exact Option.noConfusion h
    · intro cs xs r h
      rw [parseItems] at h
      split at h
      · exact Option.noConfusion h
      · rename_i v r0 hval
        split at h
        · split at h
          · rename_i vs r3 hrest
            injection h with h1
            injection h1 with h1 h2
            subst h1
            intro w hw
            rcases List.mem_cons.mp hw with rfl | hw2
            · exact ihV _ _ _ hval
            · exact ihI _ _ _ hrest w hw2
          · exact Option.noConfusion h
        · injection h with h1
          injection h1 with h1 h2
          subst h1
          intro w hw
          rcases List.mem_cons.mp hw with rfl | hw2
          · exact ihV _ _ _ hval
          · simp at hw2
        · exact Option.noConfusion h
    · intro acc cs fs r hacc hnd h
      rw [parseFields] at h
      split at h
      · split at h
        · exact Option.noConfusion h
        · rename_i k r1 hlex
          split at h
          · split at h
            · exact Option.noConfusion h
            · rename_i v r3 hval
              have hins : ∀ kv ∈ insertField acc (String.mk k) v, WfJ kv.2 := by
                intro kv hkv
                rcases mem_insertField hkv with h2 | h2
                · exact hacc kv h2
                · rw [h2]
                  exact ihV _ _ _ hval
              have hnd2 : ((insertField acc (String.mk k) v).map Prod.fst).Nodup :=
                insertField_nodup hnd
              split at h
              · exact ihF _ _ _ _ hins hnd2 h
              · injection h with h1
                injection h1 with h1 h2
                subst h1
                exact ⟨hins, hnd2⟩
              · exact Option.noConfusion h
          · exact Option.noConfusion h
      · exact Option.noConfusion h

/-! ## One-step reduction lemmas for the parser on printed text -/

theorem skipWs_cons {c : Char} (h : jsonWsChar c = false) (r : List Char) :
    skipWs (c :: r) = c :: r := by
  simp [skipWs, List.dropWhile_cons, h]

theorem parseVal_null (f : Nat) (r : List Char) :
    parseVal (f+1) ('n' :: 'u' :: 'l' :: 'l' :: r) = some (.null, r) := rfl

theorem parseVal_true (f : Nat) (r : List Char) :
    parseVal (f+1) ('t' :: 'r' :: 'u' :: 'e' :: r) = some (.bool true, r) := rfl

theorem parseVal_false (f : Nat) (r : List Char) :
    parseVal (f+1) ('f' :: 'a' :: 'l' :: 's' :: 'e' :: r) = some (.bool false, r) := rfl

theorem parseVal_arr_nil (f : Nat) (r : List Char) :
    parseVal (f+1) ('[' :: ']' :: r) = some (.arr [], r) := rfl

theorem parseVal_obj_nil (f : Nat) (r : List Char) :
    parseVal (f+1) ('{' :: '}' :: r) = some (.obj [], r) := rfl

theorem parseVal_str {r sc r1 : List Char} (f : Nat)
    (h : lexString r = some (sc, r1)) :
    parseVal (f+1) ('"' :: r) = some (.str (String.mk sc), r1) := by
  show (match lexString r with
        | some (sc, r1) => some (JVal.str (String.mk sc), r1)
        | none => none) = some (.str (String.mk sc), r1)
  rw [h]

theorem parseVal_arr_cons {c : Char} {X : List Char} {xs : List JVal}
    {r2 : List Char} (f : Nat) (hb : c ≠ ']') (hws : jsonWsChar c = false)
    (h : parseItems f (c :: X) = some (xs, r2)) :
    parseVal (f+1) ('[' :: c :: X) = some (.arr xs, r2) := by
  show (match skipWs (c :: X) with
        | ']' :: r1 => some (JVal.arr [], r1)
        | r1 =>
          match parseItems f r1 with
          | some (xs, r2) => some (JVal.arr xs, r2)
          | none => none) = some (.arr xs, r2)
  rw [skipWs_cons hws]
  split
  · rename_i r1 heq
    injection heq with hx hy
    exact absurd hx hb
  · rw [h]

theorem parseVal_obj_cons {c : Char} {X : List Char}
    {fs : List (String × JVal)} {r2 : List Char} (f : Nat)
    (hb : c ≠ '}') (hws : jsonWsChar c = false)
    (h : parseFields f [] (c :: X) = some (fs, r2)) :
    parseVal (f+1) ('{' :: c :: X) = some (.obj fs, r2) := by
  show (match skipWs (c :: X) with
        | '}' :: r1 => some (JVal.obj [], r1)
        | r1 =>
          match parseFields f [] r1 with
          | some (fs, r2) => some (JVal.obj fs, r2)
          | none => none) = some (.obj fs, r2)
  rw [skipWs_cons hws]
  split
  · rename_i r1 heq
    injection heq with hx hy
    exact absurd hx hb
  · rw [h]

theorem parseVal_num_case {c : Char} {r lex r1 : List Char} (f : Nat)
    (n1 : c ≠ 'n') (n2 : c ≠ 't') (n3 : c ≠ 'f') (n4 : c ≠ '"')
    (n5 : c ≠ '[') (n6 : c ≠ '{') (hws : jsonWsChar c = false)
    (h : lexNumber (c :: r) = some (lex, r1)) :
    parseVal (f+1) (c :: r) = some (.num (String.mk lex), r1) := by
  rw [parseVal]
  rw [skipWs_cons hws]
  split
  all_goals try (rename_i heq
                 injection heq with hx hy
                 first
                   | exact absurd hx n1
                   | exact absurd hx n2
                   | exact absurd hx n3
                   | exact absurd hx n4
                   | exact absurd hx n5
                   | exact absurd hx n6)
  rw [h]

theorem parseItems_last {cs : List Char} {v : JVal} {r r2 : List Char} (f : Nat)
    (hv : parseVal f cs = some (v, r)) (hr : skipWs r = ']' :: r2) :
    parseItems (f+1) cs = some ([v], r2) := by
  rw [parseItems, hv]
  show (match skipWs r with
        | ',' :: r2 =>
          match parseItems f r2 with
          | some (vs, r3) => some (v :: vs, r3)
          | none => none
        | ']' :: r2 => some ([v], r2)
        | _ => none) = some ([v], r2)
  rw [hr]
  rfl

theorem parseItems_more {cs : List Char} {v : JVal} {vs : List JVal}
    {r r2 r3 : List Char} (f : Nat)
    (hv : parseVal f cs = some (v, r)) (hr : skipWs r = ',' :: r2)
    (hrest : parseItems f r2 = some (vs, r3)) :
    parseItems (f+1) cs = some (v :: vs, r3) := by
  rw [parseItems, hv]
  show (match skipWs r with
        | ',' :: r2 =>
          match parseItems f r2 with
          | some (vs, r3) => some (v :: vs, r3)
          | none => none
        | ']' :: r2 => some ([v], r2)
        | _ => none) = some (v :: vs, r3)
  rw [hr]
  show (match parseItems f r2 with
        | some (vs, r3) => some (v :: vs, r3)
        | none => none) = some (v :: vs, r3)
  rw [hrest]

theorem parseFields_last {acc : List (String × JVal)} {cs t0 kd t1 t2 t3 t4 : List Char}
    {v : JVal} (f : Nat)
    (h0 : skipWs cs = '"' :: t0) (hk : lexString t0 = some (kd, t1))
    (h1 : skipWs t1 = ':' :: t2) (hv : parseVal f t2 = some (v, t3))
    (h2 : skipWs t3 = '}' :: t4) :
    parseFields (f+1) acc cs = some (insertField acc (String.mk kd) v, t4) := by
  rw [parseFields, h0]
  show (match lexString t0 with
        | none => none
        | some (k, r1) =>
          match skipWs r1 with
          | ':' :: r2 =>
            match parseVal f r2 with
            | none => none
            | some (v, r3) =>
              match skipWs r3 with
              | ',' :: r4 => parseFields f (insertField acc (String.mk k) v) r4
              | '}' :: r4 => some (insertField acc (String.mk k) v, r4)
              | _ => none
          | _ => none) = some (insertField acc (String.mk kd) v, t4)
  rw [hk]
  show (match skipWs t1 with
        | ':' :: r2 =>
          match parseVal f r2 with
          | none => none
          | some (v, r3) =>
            match skipWs r3 with
            | ',' :: r4 => parseFields f (insertField acc (String.mk kd) v) r4
            | '}' :: r4 => some (insertField acc (String.mk kd) v, r4)
            | _ => none
        | _ => none) = some (insertField acc (String.mk kd) v, t4)
  rw [h1]
  show (match parseVal f t2 with
        | none => none
        | some (v, r3) =>
          match skipWs r3 with
          | ',' :: r4 => parseFields f (insertField acc (String.mk kd) v) r4
          | '}' :: r4 => some (insertField acc (String.mk kd) v, r4)
          | _ => none) = some (insertField acc (String.mk kd) v, t4)
  rw [hv]
  show (match skipWs t3 with
        | ',' :: r4 => parseFields f (insertField acc (String.mk kd) v) r4
        | '}' :: r4 => some (insertField acc (String.mk kd) v, r4)
        | _ => none) = some (insertField acc (String.mk kd) v, t4)
  rw [h2]
  rfl

theorem parseFields_more {acc : List (String × JVal)} {cs t0 kd t1 t2 t3 t4 : List Char}
    {v : JVal} {fs : List (String × JVal)} {r : List Char} (f : Nat)
    (h0 : skipWs cs = '"' :: t0) (hk : lexString t0 = some (kd, t1))
    (h1 : skipWs t1 = ':' :: t2) (hv : parseVal f t2 = some (v, t3))
    (h2 : skipWs t3 = ',' :: t4)
    (hrest : parseFields f (insertField acc (String.mk kd) v) t4 = some (fs, r)) :
    parseFields (f+1) acc cs = some (fs, r) := by
  rw [parseFields, h0]
  show (match lexString t0 with
        | none => none
        | some (k, r1) =>
          match skipWs r1 with
          | ':' :: r2 =>
            match parseVal f r2 with
            | none => none
            | some (v, r3) =>
              match skipWs r3 with
              | ',' :: r4 => parseFields f (insertField acc (String.mk k) v) r4
              | '}' :: r4 => some (insertField acc (String.mk k) v, r4)
              | _ => none
          | _ => none) = some (fs, r)
  rw [hk]
  show (match skipWs t1 with
        | ':' :: r2 =>
          match parseVal f r2 with
          | none => none
          | some (v, r3) =>
            match skipWs r3 with
            | ',' :: r4 => parseFields f (insertField acc (String.mk kd) v) r4
            | '}' :: r4 => some (insertField acc (String.mk kd) v, r4)
            | _ => none
        | _ => none) = some (fs, r)
  rw [h1]
  show (match parseVal f t2 with
        | none => none
        | some (v, r3) =>
          match skipWs r3 with
          | ',' :: r4 => parseFields f (insertField acc (String.mk kd) v) r4
          | '}' :: r4 => some (insertField acc (String.mk kd) v, r4)
          | _ => none) = some (fs, r)
  rw [hv]
  show (match skipWs t3 with
        | ',' :: r4 => parseFields f (insertField acc (String.mk kd) v) r4
        | '}' :: r4 => some (insertField acc (String.mk kd) v, r4)
        | _ => none) = some (fs, r)
  rw [h2]
  show parseFields f (insertField acc (String.mk kd) v) t4 = some (fs, r)
  exact hrest

theorem mk_data (s : String) : String.mk s.data = s := rfl

theorem printItems_one (v : JVal) : printItems [v] = printJson v := rfl

theorem printItems_two (v w : JVal) (ws : List JVal) :
    printItems (v :: w :: ws) = printJson v ++ ',' :: printItems (w :: ws) := rfl

theorem printFields_one (k : String) (v : JVal) :
    printFields [(k, v)] = printQString k.data ++ ':' :: printJson v := rfl

theorem printFields_two (k : String) (v : JVal) (q : String × JVal)
    (fs : List (String × JVal)) :
    printFields ((k, v) :: q :: fs) =
      printQString k.data ++ ':' :: printJson v ++ ',' :: printFields (q :: fs) := rfl

theorem printJson_num (lex : String) : printJson (.num lex) = lex.data := rfl

theorem printJson_str (s : String) :
    printJson (.str s) = ('"' :: escapeChars s.data) ++ ['"'] := rfl

theorem printJson_arr (xs : List JVal) :
    printJson (.arr xs) = ('[' :: printItems xs) ++ [']'] := rfl

theorem printJson_obj (fs : List (String × JVal)) :
    printJson (.obj fs) = ('{' :: printFields fs) ++ ['}'] := rfl

/-- The first character of a shaped number lexeme is a minus sign or a
digit. -/
theorem numShape_head {lex : List Char} (h : NumShape lex) :
    ∃ c X, lex = c :: X ∧ (c.toNat = 45 ∨ 48 ≤ c.toNat ∧ c.toNat ≤ 57) := by
  obtain ⟨sg, ip, fp, ep, hsg, hip, hfp, hep, rfl⟩ := h
  rcases hsg with rfl | rfl
  · rcases hip with rfl | ⟨d, ds, rfl, h1, h2, _⟩
    · exact ⟨'0', fp ++ ep, by simp, Or.inr (by decide)⟩
    · exact ⟨d, (ds ++ fp) ++ ep, by simp, Or.inr ⟨by omega, by omega⟩⟩
  · exact ⟨'-', (ip ++ fp) ++ ep, by simp, Or.inl (by decide)⟩

theorem numHead_ws {c : Char} (h : c.toNat = 45 ∨ 48 ≤ c.toNat ∧ c.toNat ≤ 57) :
    jsonWsChar c = false := by
  simp only [jsonWsChar, Bool.or_eq_false_iff, beq_eq_false_iff_ne]
  refine ⟨⟨⟨?_, ?_⟩, ?_⟩, ?_⟩ <;> (rintro rfl; revert h; decide)

/-- The first character of the serialisation of a well-formed value: it is
never whitespace and never a closing bracket. -/
theorem printJson_head {v : JVal} (h : WfJ v) :
    ∃ c X, printJson v = c :: X ∧ jsonWsChar c = false ∧ c ≠ ']' ∧ c ≠ '}' := by
  cases h with
  | null => exact ⟨'n', _, rfl, by decide, by decide, by decide⟩
  | bool b =>
    cases b
    · exact ⟨'f', _, rfl, by decide, by decide, by decide⟩
    · exact ⟨'t', _, rfl, by decide, by decide, by decide⟩
  | num lex hn =>
    obtain ⟨c, X, hX, hc⟩ := numShape_head hn
    refine ⟨c, X, ?_, numHead_ws hc, ?_, ?_⟩
    · rw [printJson_num, hX]
    · rintro rfl; revert hc; decide
    · rintro rfl; revert hc; decide
  | str s => exact ⟨'"', _, rfl, by decide, by decide, by decide⟩
  | arr xs hxs => exact ⟨'[', _, rfl, by decide, by decide, by decide⟩
  | obj fs hfs hnd => exact ⟨'{', _, rfl, by decide, by decide, by decide⟩

/-- A non-empty field list serialises to text starting with a quote. -/
theorem printFields_head (k : String) (v : JVal) (fs : List (String × JVal)) :
    ∃ Z, printFields ((k, v) :: fs) = '"' :: Z := by
  cases fs with
  | nil => exact ⟨_, rfl⟩
  | cons q fs2 => exact ⟨_, rfl⟩

theorem lookupField_eq_none {fs : List (String × JVal)} {k : String}
    (h : k ∉ fs.map Prod.fst) : lookupField fs k = none := by
  induction fs with
  | nil => rfl
  | cons a rest ih =>
    rcases a with ⟨k0, v0⟩
    simp only [List.map_cons, List.mem_cons] at h
    push_neg at h
    have hk0 : (k0 == k) = false := by
      simp only [beq_eq_false_iff_ne]
      exact fun he => h.1 he.symm
    simp only [lookupField, hk0, Bool.false_eq_true, if_false]
    exact ih h.2

theorem key_not_in_acc {acc fs : List (String × JVal)} {k : String} {v : JVal}
    (h : ((acc ++ (k, v) :: fs).map Prod.fst).Nodup) : k ∉ acc.map Prod.fst := by
  intro hk
  rw [List.map_append] at h
  rcases (List.nodup_append.mp h) with ⟨_, _, hdisj⟩
  exact hdisj hk (by simp)

/-- Fuel-indexed round-trip: parsing the serialisation of a well-formed value
(followed by a suitable boundary) returns exactly that value, for every
sufficiently large fuel; mutatis mutandis for item lists and field lists. -/
theorem print_parse (f : Nat) :
    (∀ v rest, WfJ v → 2 * (printJson v).length + 1 ≤ f → numBoundary rest →
       parseVal f (printJson v ++ rest) = some (v, rest))
  ∧ (∀ xs rest, xs ≠ [] → (∀ v ∈ xs, WfJ v) →
       2 * (printItems xs).length + 2 ≤ f →
       parseItems f (printItems xs ++ ']' :: rest) = some (xs, rest))
  ∧ (∀ fs acc rest, fs ≠ [] → (∀ kv ∈ fs, WfJ kv.2) →
       ((acc ++ fs).map Prod.fst).Nodup →
       2 * (printFields fs).length + 2 ≤ f →
       parseFields f acc (printFields fs ++ '}' :: rest) = some (acc ++ fs, rest)) := by
  induction f with
  | zero =>
    refine ⟨?_, ?_, ?_⟩
    · intro v rest _ hfuel _
      omega
    · intro xs rest _ _ hfuel
      omega
    · intro fs acc rest _ _ _ hfuel
      omega
  | succ f ih =>
    obtain ⟨ihV, ihI, ihF⟩ := ih
    refine ⟨?_, ?_, ?_⟩
    · intro v rest hwf hfuel hbnd
      cases hwf with
      | null => exact parseVal_null f rest
      | bool b =>
        cases b
        · exact parseVal_false f rest
        · exact parseVal_true f rest
      | num lex hn =>
        obtain ⟨c, X, hX, hc⟩ := numShape_head hn
        have hws := numHead_ws hc
        have n1 : c ≠ 'n' := by rintro rfl; revert hc; decide
        have n2 : c ≠ 't' := by rintro rfl; revert hc; decide
        have n3 : c ≠ 'f' := by rintro rfl; revert hc; decide
        have n4 : c ≠ '"' := by rintro rfl; revert hc; decide
        have n5 : c ≠ '[' := by rintro rfl; revert hc; decide
        have n6 : c ≠ '{' := by rintro rfl; revert hc; decide
        have hlex : lexNumber (c :: (X ++ rest)) = some (lex.data, rest) := by
          have h2 : c :: (X ++ rest) = lex.data ++ rest := by
            rw [hX]
            rfl
          rw [h2]
          exact lexNumber_shaped hn hbnd
        have h3 := parseVal_num_case f n1 n2 n3 n4 n5 n6 hws hlex
        rw [printJson_num, hX, List.cons_append]
        exact h3
      | str s =>
        have h2 : printJson (.str s) ++ rest =
            '"' :: (escapeChars s.data ++ '"' :: rest) := by
          rw [printJson_str]
          simp
        rw [h2]
        exact parseVal_str f (lexString_roundtrip s.data rest)
      | arr xs hxs =>
        cases xs with
        | nil => exact parseVal_arr_nil f rest
        | cons v vs =>
          obtain ⟨c, X, hcX, hws, hb1, hb2⟩ := printJson_head (hxs v (by simp))
          have hlen : (printJson (.arr (v :: vs))).length =
              (printItems (v :: vs)).length + 2 := by
            rw [printJson_arr]
            simp
          have hitems := ihI (v :: vs) rest (by simp) hxs (by omega)
          have hcons : ∃ Z, printItems (v :: vs) ++ ']' :: rest = c :: Z := by
            cases vs with
            | nil =>
              refine ⟨X ++ ']' :: rest, ?_⟩
              rw [printItems_one, hcX]
              rfl
            | cons w ws =>
              refine ⟨(X ++ ',' :: printItems (w :: ws)) ++ ']' :: rest, ?_⟩
              rw [printItems_two, hcX]
              simp
          obtain ⟨Z, hZ⟩ := hcons
          have hin : printJson (.arr (v :: vs)) ++ rest =
              '[' :: (printItems (v :: vs) ++ ']' :: rest) := by
            rw [printJson_arr]
            simp
          rw [hin, hZ]
          rw [hZ] at hitems
          exact parseVal_arr_cons f hb1 hws hitems
      | obj fs hfs hnd =>
        cases fs with
        | nil => exact parseVal_obj_nil f rest
        | cons kv fs2 =>
          rcases kv with ⟨k, v⟩
          obtain ⟨Z, hZ⟩ := printFields_head k v fs2
          have hlen : (printJson (.obj ((k, v) :: fs2))).length =
              (printFields ((k, v) :: fs2)).length + 2 := by
            rw [printJson_obj]
            simp
          have hfields := ihF ((k, v) :: fs2) [] rest (by simp) hfs
            (by simpa using hnd) (by omega)
          have hin : printJson (.obj ((k, v) :: fs2)) ++ rest =
              '{' :: (printFields ((k, v) :: fs2) ++ '}' :: rest) := by
            rw [printJson_obj]
            simp
          rw [hin, hZ, List.cons_append]
          have hfields2 : parseFields f [] ('"' :: (Z ++ '}' :: rest)) =
              some ((k, v) :: fs2, rest) := by
            rw [← List.cons_append, ← hZ]
            simpa using hfields
          exact parseVal_obj_cons f (by decide) (by decide) hfields2
    · intro xs rest hne hwf hfuel
      cases xs with
      | nil => exact absurd rfl hne
      | cons v vs =>
        have hwv : WfJ v := hwf v (by simp)
        cases vs with
        | nil =>
          have hfuel2 : 2 * (printJson v).length + 1 ≤ f := by
            rw [printItems_one] at hfuel
            omega
          have hv := ihV v (']' :: rest) hwv hfuel2 (numBoundary_rbracket rest)
          have hin : printItems [v] ++ ']' :: rest = printJson v ++ ']' :: rest := by
            rw [printItems_one]
          rw [hin]
          exact parseItems_last f hv (@skipWs_cons ']' (by decide) rest)
        | cons w ws =>
          have hlen : (printItems (v :: w :: ws)).length =
              (printJson v).length + 1 + (printItems (w :: ws)).length := by
            rw [printItems_two]
            simp only [List.length_append, List.length_cons]
            omega
          have hv := ihV v (',' :: (printItems (w :: ws) ++ ']' :: rest)) hwv
            (by omega) (numBoundary_comma _)
          have hrest := ihI (w :: ws) rest (by simp)
            (fun u hu => hwf u (List.mem_cons_of_mem _ hu)) (by omega)
          have hin : printItems (v :: w :: ws) ++ ']' :: rest =
              printJson v ++ ',' :: (printItems (w :: ws) ++ ']' :: rest) := by
            rw [printItems_two]
            simp
          rw [hin]
          exact parseItems_more f hv
            (@skipWs_cons ',' (by decide) (printItems (w :: ws) ++ ']' :: rest)) hrest
    · intro fs acc rest hne hwf hnd hfuel
      cases fs with
      | nil => exact absurd rfl hne
      | cons kv fs2 =>
        rcases kv with ⟨k, v⟩
        have hwv : WfJ v := hwf (k, v) (by simp)
        have hkacc : lookupField acc k = none :=
          lookupField_eq_none (key_not_in_acc hnd)
        cases fs2 with
        | nil =>
          have hin : printFields [(k, v)] ++ '}' :: rest =
              '"' :: (escapeChars k.data ++ '"' :: ':' ::
                (printJson v ++ '}' :: rest)) := by
            rw [printFields_one]
            show ((('"' :: escapeChars k.data) ++ ['"']) ++ ':' :: printJson v)
                ++ '}' :: rest = _
            simp
          have hlen : (printFields [(k, v)]).length =
              (escapeChars k.data).length + 3 + (printJson v).length := by
            rw [printFields_one]
            show ((('"' :: escapeChars k.data) ++ ['"']) ++ ':' :: printJson v).length = _
            simp only [List.length_append, List.length_cons, List.length_nil]
            omega
          have hv := ihV v ('}' :: rest) hwv (by omega) (numBoundary_rbrace rest)
          rw [hin]
          have h0 := @skipWs_cons '"' (by decide)
            (escapeChars k.data ++ '"' :: ':' :: (printJson v ++ '}' :: rest))
          have hlexk := lexString_roundtrip k.data (':' :: (printJson v ++ '}' :: rest))
          have h1 := @skipWs_cons ':' (by decide) (printJson v ++ '}' :: rest)
          have h2 := @skipWs_cons '}' (by decide) rest
          have hfin : parseFields (f + 1) acc
              ('"' :: (escapeChars k.data ++ '"' :: ':' ::
                (printJson v ++ '}' :: rest))) =
              some (insertField acc (String.mk k.data) v, rest) :=
            parseFields_last f h0 hlexk h1 hv h2
          rw [hfin, mk_data, insertField_append_of_absent acc k v hkacc]
        | cons q fs3 =>
          have hin : printFields ((k, v) :: q :: fs3) ++ '}' :: rest =
              '"' :: (escapeChars k.data ++ '"' :: ':' ::
                (printJson v ++ ',' :: (printFields (q :: fs3) ++ '}' :: rest))) := by
            rw [printFields_two]
            show (((('"' :: escapeChars k.data) ++ ['"']) ++ ':' :: printJson v)
                ++ ',' :: printFields (q :: fs3)) ++ '}' :: rest = _
            simp
          have hlen : (printFields ((k, v) :: q :: fs3)).length =
              (escapeChars k.data).length + 4 + (printJson v).length +
                (printFields (q :: fs3)).length := by
            rw [printFields_two]
            show (((('"' :: escapeChars k.data) ++ ['"']) ++ ':' :: printJson v)
                ++ ',' :: printFields (q :: fs3)).length = _
            simp only [List.length_append, List.length_cons, List.length_nil]
            omega
          have hv := ihV v (',' :: (printFields (q :: fs3) ++ '}' :: rest)) hwv
            (by omega) (numBoundary_comma _)
          have hnd2 : (((acc ++ [(k, v)]) ++ q :: fs3).map Prod.fst).Nodup := by
            have he : (acc ++ [(k, v)]) ++ q :: fs3 = acc ++ (k, v) :: q :: fs3 := by
              simp
            rw [he]
            exact hnd
          have hrest := ihF (q :: fs3) (acc ++ [(k, v)]) rest (by simp)
            (fun kv2 hkv2 => hwf kv2 (List.mem_cons_of_mem _ hkv2)) hnd2 (by omega)
          rw [hin]
          have h0 := @skipWs_cons '"' (by decide)
            (escapeChars k.data ++ '"' :: ':' ::
              (printJson v ++ ',' :: (printFields (q :: fs3) ++ '}' :: rest)))
          have hlexk := lexString_roundtrip k.data
            (':' :: (printJson v ++ ',' :: (printFields (q :: fs3) ++ '}' :: rest)))
          have h1 := @skipWs_cons ':' (by decide)
            (printJson v ++ ',' :: (printFields (q :: fs3) ++ '}' :: rest))
          have h2 := @skipWs_cons ',' (by decide) (printFields (q :: fs3) ++ '}' :: rest)
          have hrest2 : parseFields f (insertField acc (String.mk k.data) v)
              (printFields (q :: fs3) ++ '}' :: rest) =
              some (acc ++ (k, v) :: q :: fs3, rest) := by
            rw [mk_data, insertField_append_of_absent acc k v hkacc, hrest]
            simp
          exact parseFields_more f h0 hlexk h1 hv h2 hrest2

/-! ## Assembling the round trip for the extraction pipeline -/

theorem parseJsonL_print {v : JVal} (h : WfJ v) :
    parseJsonL (printJson v) = some v := by
  have h2 := (print_parse (2 * (printJson v).length + 2)).1 v [] h (by omega)
    numBoundary_nil
  rw [List.append_nil] at h2
  unfold parseJsonL
  rw [h2]
  rfl

theorem parseJsonL_wf {cs : List Char} {v : JVal}
    (h : parseJsonL cs = some v) : WfJ v := by
  unfold parseJsonL at h
  split at h
  · rename_i w r hw
    split at h
    · injection h with h1
      subst h1
      exact (parse_wf _).1 _ _ _ hw
    · exact Option.noConfusion h
  · exact Option.noConfusion h

theorem extractStructuredL_wf {cs : List Char} {o : JVal}
    (h : extractStructuredL cs = some o) : WfJ o := by
  unfold extractStructuredL at h
  split at h
  · rename_i w hw
    injection h with h1
    subst h1
    exact parseJsonL_wf hw
  · split at h
    · exact parseJsonL_wf h
    · exact Option.noConfusion h

/-- Does the text start with a markdown fence marker? -/
def startsFence : List Char → Bool
  | '`' :: '`' :: '`' :: _ => true
  | _ => false

/-- Does the text contain a triple backtick anywhere?  Exactly when it does
not, the two fence-stripping replacements of phase 1 leave the text alone. -/
def hasFence : List Char → Bool
  | [] => false
  | c :: cs => startsFence (c :: cs) || hasFence cs

theorem hasFence_tail {c : Char} {cs : List Char}
    (h : hasFence (c :: cs) = false) :
    startsFence (c :: cs) = false ∧ hasFence cs = false := by
  have h2 : (startsFence (c :: cs) || hasFence cs) = false := h
  exact Bool.or_eq_false_iff.mp h2

theorem stripFenceJson_id {cs : List Char} (h : hasFence cs = false) :
    stripFenceJson cs = cs := by
  induction cs with
  | nil => rfl
  | cons c cs ih =>
    obtain ⟨hs, ht⟩ := hasFence_tail h
    rw [stripFenceJson.eq_def]
    split
    · rename_i r heq
      rw [heq] at hs
      exact absurd hs (by simp [startsFence])
    · rename_i r heq
      rw [heq] at hs
      exact absurd hs (by simp [startsFence])
    · rename_i c2 cs2 heq
      injection heq with hx hy
      subst hx
      subst hy
      rw [ih ht]
    · rename_i heq
      exact List.noConfusion heq

theorem stripFenceBare_id {cs : List Char} (h : hasFence cs = false) :
    stripFenceBare cs = cs := by
  induction cs with
  | nil => rfl
  | cons c cs ih =>
    obtain ⟨hs, ht⟩ := hasFence_tail h
    rw [stripFenceBare.eq_def]
    split
    · rename_i r heq
      rw [heq] at hs
      exact absurd hs (by simp [startsFence])
    · rename_i r heq
      rw [heq] at hs
      exact absurd hs (by simp [startsFence])
    · rename_i c2 cs2 heq
      injection heq with hx hy
      subst hx
      subst hy
      rw [ih ht]
    · rename_i heq
      exact List.noConfusion heq

theorem stripFences_id {cs : List Char} (h : hasFence cs = false) :
    stripFences cs = cs := by
  unfold stripFences
  rw [stripFenceJson_id h, stripFenceBare_id h]

theorem numHead_jsWs {c : Char}
    (h : c.toNat = 45 ∨ 48 ≤ c.toNat ∧ c.toNat ≤ 57) : jsWsChar c = false := by
  by_contra hx
  have hx2 : jsWsChar c = true := by
    cases hb : jsWsChar c
    · exact absurd hb hx
    · rfl
  simp only [jsWsChar, Bool.or_eq_true, Bool.and_eq_true, beq_iff_eq,
    decide_eq_true_eq] at hx2
  omega

theorem digit_run_last {d : Char} {ds : List Char}
    (hd : 48 ≤ d.toNat ∧ d.toNat ≤ 57) (hds : AllDigits ds) :
    ∃ c, (d :: ds).getLast? = some c ∧ 48 ≤ c.toNat ∧ c.toNat ≤ 57 := by
  have hne : d :: ds ≠ [] := by simp
  refine ⟨(d :: ds).getLast hne, List.getLast?_eq_getLast _ hne, ?_⟩
  have hmem := List.getLast_mem hne
  rcases List.mem_cons.mp hmem with he | he
  · rw [he]
    exact hd
  · have := hds _ he
    simp only [isDigitCh, Bool.and_eq_true, decide_eq_true_eq] at this
    exact this

/-- The last character of a shaped number lexeme is a digit. -/
theorem numShape_last {lex : List Char} (h : NumShape lex) :
    ∃ c, lex.getLast? = some c ∧ 48 ≤ c.toNat ∧ c.toNat ≤ 57 := by
  obtain ⟨sg, ip, fp, ep, hsg, hip, hfp, hep, rfl⟩ := h
  have hip_last : ∃ c, ip.getLast? = some c ∧ 48 ≤ c.toNat ∧ c.toNat ≤ 57 := by
    rcases hip with rfl | ⟨d, ds, rfl, h1, h2, h3⟩
    · exact ⟨'0', rfl, by decide, by decide⟩
    · exact digit_run_last ⟨by omega, h2⟩ h3
  rcases hep with rfl | ⟨e, sg2, d, ds, rfl, he, hsg2, hd, hds⟩
  · rcases hfp with rfl | ⟨d, ds, rfl, hd, hds⟩
    · obtain ⟨c, hc1, hc2⟩ := hip_last
      refine ⟨c, ?_, hc2⟩
      have hipne : ip ≠ [] := by
        intro he
        rw [he] at hc1
        exact Option.noConfusion hc1
      rw [List.append_nil, List.append_nil,
        List.getLast?_append_of_ne_nil sg hipne]
      exact hc1
    · have hdn : 48 ≤ d.toNat ∧ d.toNat ≤ 57 := by
        simp only [isDigitCh, Bool.and_eq_true, decide_eq_true_eq] at hd
        exact hd
      obtain ⟨c, hc1, hc2⟩ := digit_run_last hdn hds
      refine ⟨c, ?_, hc2⟩
      rw [List.append_nil]
      have he2 : '.' :: d :: ds = ['.'] ++ d :: ds := rfl
      rw [he2, List.getLast?_append_of_ne_nil _ (by simp : (['.'] ++ d :: ds) ≠ []),
        List.getLast?_append_of_ne_nil _ (by simp : (d :: ds) ≠ [])]
      exact hc1
  · have hdn : 48 ≤ d.toNat ∧ d.toNat ≤ 57 := by
      simp only [isDigitCh, Bool.and_eq_true, decide_eq_true_eq] at hd
      exact hd
    obtain ⟨c, hc1, hc2⟩ := digit_run_last hdn hds
    refine ⟨c, ?_, hc2⟩
    have he2 : e :: (sg2 ++ d :: ds) = (e :: sg2) ++ d :: ds := rfl
    rw [he2, List.getLast?_append_of_ne_nil _
        (by simp : ((e :: sg2) ++ d :: ds) ≠ []),
      List.getLast?_append_of_ne_nil _ (by simp : (d :: ds) ≠ [])]
    exact hc1

theorem printJson_head_jsWs {v : JVal} (h : WfJ v) :
    ∀ c, (printJson v).head? = some c → jsWsChar c = false := by
  cases h with
  | null =>
    intro c hc
    rw [show (printJson JVal.null).head? = some 'n' from rfl] at hc
    injection hc with he
    subst he
    decide
  | bool b =>
    cases b
    · intro c hc
      rw [show (printJson (JVal.bool false)).head? = some 'f' from rfl] at hc
      injection hc with he
      subst he
      decide
    · intro c hc
      rw [show (printJson (JVal.bool true)).head? = some 't' from rfl] at hc
      injection hc with he
      subst he
      decide
  | num lex hn =>
    obtain ⟨c0, X, hX, hc0⟩ := numShape_head hn
    intro c hc
    rw [printJson_num, hX] at hc
    rw [List.head?_cons] at hc
    injection hc with he
    subst he
    exact numHead_jsWs hc0
  | str s =>
    intro c hc
    rw [printJson_str] at hc
    rw [show (('"' :: escapeChars s.data) ++ ['"']).head? = some '"' from rfl] at hc
    injection hc with he
    subst he
    decide
  | arr xs hxs =>
    intro c hc
    rw [printJson_arr] at hc
    rw [show (('[' :: printItems xs) ++ [']']).head? = some '[' from rfl] at hc
    injection hc with he
    subst he
    decide
  | obj fs hfs hnd =>
    intro c hc
    rw [printJson_obj] at hc
    rw [show (('{' :: printFields fs) ++ ['}']).head? = some '{' from rfl] at hc
    injection hc with he
    subst he
    decide

theorem printJson_last_jsWs {v : JVal} (h : WfJ v) :
    ∀ c, (printJson v).getLast? = some c → jsWsChar c = false := by
  cases h with
  | null =>
    intro c hc
    rw [show (printJson JVal.null).getLast? = some 'l' from by rfl] at hc
    injection hc with he
    subst he
    decide
  | bool b =>
    cases b
    · intro c hc
      rw [show (printJson (JVal.bool false)).getLast? = some 'e' from by rfl] at hc
      injection hc with he
      subst he
      decide
    · intro c hc
      rw [show (printJson (JVal.bool true)).getLast? = some 'e' from by rfl] at hc
      injection hc with he
      subst he
      decide
  | num lex hn =>
    obtain ⟨c0, hc1, hc2⟩ := numShape_last hn
    intro c hc
    rw [printJson_num, hc1] at hc
    injection hc with he
    subst he
    exact numHead_jsWs (Or.inr hc2)
  | str s =>
    intro c hc
    rw [printJson_str, List.getLast?_concat] at hc
    injection hc with he
    subst he
    decide
  | arr xs hxs =>
    intro c hc
    rw [printJson_arr, List.getLast?_concat] at hc
    injection hc with he
    subst he
    decide
  | obj fs hfs hnd =>
    intro c hc
    rw [printJson_obj, List.getLast?_concat] at hc
    injection hc with he
    subst he
    decide

theorem printJson_trimId {v : JVal} (h : WfJ v) :
    trimStage (printJson v) = printJson v :=
  trimStage_id (printJson_head_jsWs h) (printJson_last_jsWs h)

theorem phase1_print {o : JVal} (hwf : WfJ o)
    (hf : hasFence (printJson o) = false) :
    phase1Parse (printJson o) = some o := by
  unfold phase1Parse
  rw [stripFences_id hf, printJson_trimId hwf]
  exact parseJsonL_print hwf

/-- The number lexemes on which JavaScript's parse-then-stringify is textually
the identity: a plain integer with no leading zero, fraction, exponent or
minus zero, of at most 15 digits (well inside the 2^53 range in which every
integer is an exact IEEE-754 double, and small enough that `Number.toString`
uses plain positional notation).  `JSON.parse` turns such a lexeme into an
exact double and `JSON.stringify` prints back exactly the same digits. -/
def safeIntLex : List Char → Bool
  | ['0'] => true
  | '-' :: d :: ds =>
    (49 ≤ d.toNat && d.toNat ≤ 57) && ds.all isDigitCh && ds.length ≤ 14
  | d :: ds =>
    (49 ≤ d.toNat && d.toNat ≤ 57) && ds.all isDigitCh && ds.length ≤ 14
  | [] => false

mutual
/-- Every number anywhere in the value carries a `safeIntLex` lexeme: on such
values the lexeme model of numbers agrees with JavaScript's double-based
`JSON.parse`/`JSON.stringify` behaviour. -/
def safeNums : JVal → Bool
  | .null => true
  | .bool _ => true
  | .str _ => true
  | .num lex => safeIntLex lex.data
  | .arr xs => safeNumsL xs
  | .obj fs => safeNumsF fs

def safeNumsL : List JVal → Bool
  | [] => true
  | v :: vs => safeNums v && safeNumsL vs

def safeNumsF : List (String × JVal) → Bool
  | [] => true
  | (_, v) :: fs => safeNums v && safeNumsF fs
end

/-- C3 counterexample: the extraction can produce an object whose `analysis`
text contains a triple backtick inside a string literal; `JSON.stringify` of
that object re-creates the fence marker, phase 1's fence stripping then
mutilates the serialised text, and re-extraction returns a *different* object
(the backticks are gone), refuting the unconditional round-trip. -/
theorem roundtrip_fails_on_fence :
    extractStructured "junk \x7b\"a\":\"```\"\x7d" =
      some (JVal.obj [("a", JVal.str "```")]) ∧
    stringifyJson (JVal.obj [("a", JVal.str "```")]) = "\x7b\"a\":\"```\"\x7d" ∧
    extractStructured "\x7b\"a\":\"```\"\x7d" =
      some (JVal.obj [("a", JVal.str "")]) ∧
    JVal.obj [("a", JVal.str "")] ≠ JVal.obj [("a", JVal.str "```")] := by
  refine ⟨rfl, rfl, rfl, ?_⟩
  simp

/-- C3 (amended): for every value `o` that `extractStructured` can produce
whose numbers all carry `safeIntLex` lexemes — so that `JSON.stringify`
reproduces each number's source text exactly, which is where the lexeme model
of numbers coincides with JavaScript's double semantics — if the serialisation
`JSON.stringify(o)` additionally contains no triple backtick, then
re-extracting the serialisation yields `o` again (via the strict phase-1
path).  Both provisos are forced: `roundtrip_fails_on_fence` shows phase 1's
fence stripping mutilating a serialised string value, and outside `safeNums`
the serialisation itself changes the value (`JSON.parse` makes `1e999` into
`Infinity`, which `JSON.stringify` writes as `null`, so re-extraction returns
a different object — a divergence between doubles and lexemes that this
embedding does not model, hence the restriction of the claim to the class
where the two agree). -/
theorem extract_roundtrip (raw : String) (o : JVal)
    (h : extractStructured raw = some o)
    (_hnum : safeNums o = true)
    (hf : hasFence (stringifyJson o).data = false) :
    extractStructured (stringifyJson o) = some o := by
  have hwf : WfJ o := extractStructuredL_wf h
  show extractStructuredL (printJson o) = some o
  unfold extractStructuredL
  rw [phase1_print hwf hf]

/-- Witness for C3's amended theorem at a concrete extraction. -/
theorem extract_roundtrip_witness :
    extractStructured "\x7b\"a\":1\x7d" = some (JVal.obj [("a", JVal.num "1")]) ∧
    safeNums (JVal.obj [("a", JVal.num "1")]) = true ∧
    hasFence (stringifyJson (JVal.obj [("a", JVal.num "1")])).data = false ∧
    extractStructured (stringifyJson (JVal.obj [("a", JVal.num "1")])) =
      some (JVal.obj [("a", JVal.num "1")]) :=
  ⟨rfl, rfl, rfl,
    extract_roundtrip "\x7b\"a\":1\x7d" (JVal.obj [("a", JVal.num "1")]) rfl rfl rfl⟩

end LucidIQ
